import Mathlib

/-!
Verification of the SSE-Lang rule-checker core (goldisle-site).

The definitions below are a shallow embedding of the v0.2 checker script
(the second script of the bundle: lexer, SSE-Lang parser, legacy key-value
parser, alias canonicalization, ordinal comparison, derivation engine,
tiered decision and trace fingerprint).  JavaScript strings are Lean
strings; the handful of string primitives the script uses (toLowerCase,
toUpperCase, trim, split, startsWith) are re-implemented over character
lists so that every definition evaluates inside the kernel.  The ASCII
fragments of those primitives coincide with their JavaScript originals;
no rule data or input in the claims leaves ASCII.  JavaScript numbers are
embedded as rationals: every numeric literal the two parsers accept is a
finite decimal, and the comparisons the checker performs on them are
order comparisons, which agree with rational order on such values.
-/

namespace SSE

/-- ASCII lower-casing of one character, as JavaScript toLowerCase acts on
the ASCII range. -/
def lowerChar (c : Char) : Char :=
  if 'A' ≤ c ∧ c ≤ 'Z' then Char.ofNat (c.toNat + 32) else c

/-- ASCII upper-casing of one character, as JavaScript toUpperCase acts on
the ASCII range. -/
def upperChar (c : Char) : Char :=
  if 'a' ≤ c ∧ c ≤ 'z' then Char.ofNat (c.toNat - 32) else c

/-- Embedding of the JavaScript string method toLowerCase. -/
def strLower (s : String) : String := String.mk (s.data.map lowerChar)

/-- Embedding of the JavaScript string method toUpperCase. -/
def strUpper (s : String) : String := String.mk (s.data.map upperChar)

/-- The whitespace characters the script can meet: JavaScript trim strips
all Unicode whitespace; the inputs here only carry the ASCII ones. -/
def isSpaceJS (c : Char) : Bool :=
  c = ' ' ∨ c = '\t' ∨ c = '\n' ∨ c = '\r' ∨ c = Char.ofNat 11 ∨ c = Char.ofNat 12

/-- Strip leading and trailing whitespace from a character list. -/
def trimChars (l : List Char) : List Char :=
  ((l.dropWhile isSpaceJS).reverse.dropWhile isSpaceJS).reverse

/-- Embedding of the JavaScript string method trim. -/
def trimStr (s : String) : String := String.mk (trimChars s.data)

/-- JavaScript `a || b` on a possibly missing string: an absent or empty
string falls through to the alternative. -/
def jsOrS (a : Option String) (b : String) : String :=
  match a with
  | some s => if s.data.isEmpty then b else s
  | none => b

/-- JavaScript truthiness of a possibly missing string. -/
def truthyS (a : Option String) : Bool :=
  match a with
  | some s => ¬ s.data.isEmpty
  | none => false

/-- A normalized FieldMap value: the script stores numbers (parseInt or
parseFloat results) or lowercased strings. -/
inductive Value where
  | num (q : ℚ)
  | str (s : String)
deriving DecidableEq

/-- Rendering of an embedded number as JavaScript String(n) renders it.
Integers (the only numbers the checker ever converts to strings against
level names and ordinal scales) print exactly as in JavaScript; a
non-integral rational keeps a num/den rendering, which like the JavaScript
decimal rendering never collides with an alphabetic level name. -/
def numToStr (q : ℚ) : String :=
  if q.den = 1 then toString q.num else toString q.num ++ "/" ++ toString q.den

/-- JavaScript String(v) on a FieldMap value. -/
def vToString : Value → String
  | .num q => numToStr q
  | .str s => s

/-- FieldMap: insertion-ordered map from canonical field names to values,
as a JavaScript Map of string keys. -/
abbrev FieldMap := List (String × Value)

/-- JavaScript Map.get. -/
def assocGet {α : Type} : List (String × α) → String → Option α
  | [], _ => none
  | (k2, v) :: rest, k => if k2 = k then some v else assocGet rest k

/-- JavaScript Map.set: replace the value at an existing key in place,
else append the new entry. -/
def assocSet {α : Type} : List (String × α) → String → α → List (String × α)
  | [], k, v => [(k, v)]
  | (k2, v2) :: rest, k, v =>
    if k2 = k then (k, v) :: rest else (k2, v2) :: assocSet rest k v

/-- JavaScript Map.has. -/
def assocHas {α : Type} (m : List (String × α)) (k : String) : Bool :=
  (assocGet m k).isSome

/-- One rule condition, as the rules.json entries present it: field, op and
value of a machine-parsed comparison, or a raw marker for a condition kept
only as text.  The script reads the three keys with JavaScript optional
semantics, embedded as options. -/
structure Cond where
  raw : Option String
  field : Option String
  op : Option String
  value : Value
deriving DecidableEq

/-- One rule: its identifier, citation, severity level, conjunctive
condition list (the if array) and the judgement of its then block
(rule.then?.judgement, embedded as one optional string).  Fields the
decision path never reads (name, group, rationale, status) are omitted. -/
structure Rule where
  id : String
  cit : Option String
  level : Option String
  conds : List Cond
  judgement : Option String
deriving DecidableEq

/-- The loaded ruleset: identity fields used by the trace, aliases
(canonical name to synonym list, in declaration order), ordinal scales,
rules in declaration order, and the default severity level. -/
structure Ruleset where
  spec : Option String
  version : Option String
  source : Option String
  aliases : List (String × List String)
  ordinal_scales : List (String × List String)
  rules : List Rule
  defaultLevel : Option String
deriving DecidableEq

/-- The alias lookup the script rebuilds per evaluation: every canonical
name maps from its own lowercase, then every synonym maps from its
lowercase, later entries overwriting earlier ones (JavaScript Map.set). -/
def buildAliasMap (aliases : List (String × List String)) : List (String × String) :=
  aliases.foldl
    (fun acc p =>
      (p.2).foldl (fun a s => assocSet a (strLower s) p.1)
        (assocSet acc (strLower p.1) p.1))
    []

/-- canonKey of the script: case-insensitive alias lookup, unknown keys
mapping to themselves (aliasToCanonical.get(key.toLowerCase()) || key). -/
def canonKey (rs : Ruleset) (k : String) : String :=
  jsOrS (assocGet (buildAliasMap rs.aliases) (strLower k)) k

theorem assocGet_mem {α : Type} (m : List (String × α)) (k : String) (v : α)
    (h : assocGet m k = some v) : (k, v) ∈ m := by
  induction m with
  | nil => simp [assocGet] at h
  | cons p rest ih =>
    obtain ⟨k2, v2⟩ := p
    by_cases hk : k2 = k
    · subst hk
      simp [assocGet] at h
      subst h
      exact List.mem_cons_self _ _
    · simp [assocGet, hk] at h
      exact List.mem_cons_of_mem _ (ih h)

/-- An alias table in which every stored canonical name still looks itself
up: the lowercase of each value of the built alias map maps back to that
value.  Every realistic alias object has this shape; it fails only when a
synonym declared later shadows the lowercase of an earlier canonical name. -/
def aliasStable (rs : Ruleset) : Prop :=
  ∀ p ∈ buildAliasMap rs.aliases,
    assocGet (buildAliasMap rs.aliases) (strLower p.2) = some p.2

instance (rs : Ruleset) : Decidable (aliasStable rs) := by
  unfold aliasStable; infer_instance

/-- C7 (amended): alias canonicalization is idempotent for every ruleset
whose alias table is stable in the above sense — for every raw key k,
canonKey rs (canonKey rs k) = canonKey rs k.  The claim as frozen, over
every ruleset, fails: a synonym of a later field that collides with the
lowercase of an earlier canonical name breaks idempotence (see the
counterexample theorem). -/
theorem canonKey_idem_of_stable (rs : Ruleset) (h : aliasStable rs) (k : String) :
    canonKey rs (canonKey rs k) = canonKey rs k := by
  cases hg : assocGet (buildAliasMap rs.aliases) (strLower k) with
  | none => simp [canonKey, jsOrS, hg]
  | some s =>
    by_cases hs : s.data.isEmpty
    · simp [canonKey, jsOrS, hg, hs]
    · have h2 := h _ (assocGet_mem _ _ _ hg)
      simp only at h2
      simp [canonKey, jsOrS, hg, hs, h2]

/-- A stable alias table on which the idempotence theorem applies at the
concrete key "AL". -/
def rsStable : Ruleset :=
  { spec := none, version := none, source := none,
    aliases := [("Alpha", ["al"])],
    ordinal_scales := [], rules := [], defaultLevel := none }

/-- Witness for C7 at a concrete input: the alias table
(Alpha with synonym al) is stable and canonicalization of "AL" is
idempotent. -/
theorem canonKey_idem_witness :
    canonKey rsStable (canonKey rsStable "AL") = canonKey rsStable "AL" :=
  canonKey_idem_of_stable rsStable (by decide) "AL"

/-- A ruleset whose aliases object is, in declaration order,
C with synonym x, then D with synonym c: the synonym c of D overwrites the
lowercase entry of the canonical name C in the alias map. -/
def rsShadow : Ruleset :=
  { spec := none, version := none, source := none,
    aliases := [("C", ["x"]), ("D", ["c"])],
    ordinal_scales := [], rules := [], defaultLevel := none }

/-- Counterexample to C7 as frozen: on rsShadow the raw key x
canonicalizes to C, but C canonicalizes further to D, so canonKey is not
idempotent for every ruleset (canonKey (canonKey x) = D while
canonKey x = C). -/
theorem canonKey_not_idem :
    canonKey rsShadow (canonKey rsShadow "x") ≠ canonKey rsShadow "x" := by
  decide

/-- ordinalIndex of the script: the case-insensitive position of a value
on the ordinal scale configured for the field, if both exist. -/
def ordinalIndex (rs : Ruleset) (field : String) (value : Value) : Option Nat :=
  match assocGet rs.ordinal_scales field with
  | none => none
  | some scale =>
    (scale.map strLower).findIdx? (fun x => x = strLower (vToString value))

/-- compareValue of the script: ordinal comparison when both sides sit on
the scale for the field, else numeric comparison when both are numbers,
else case-insensitive string equality or inequality, every other operator
false. -/
def compareValue (rs : Ruleset) (field op : String) (lhs rhs : Value) : Bool :=
  match ordinalIndex rs field lhs, ordinalIndex rs field rhs with
  | some li, some ri =>
    if op = ">=" then li ≥ ri
    else if op = "<=" then li ≤ ri
    else if op = ">" then li > ri
    else if op = "<" then li < ri
    else if op = "=" then li = ri
    else if op = "!=" then li ≠ ri
    else false
  | _, _ =>
    match lhs, rhs with
    | .num a, .num b =>
      if op = ">=" then a ≥ b
      else if op = "<=" then a ≤ b
      else if op = ">" then a > b
      else if op = "<" then a < b
      else if op = "=" then a = b
      else if op = "!=" then a ≠ b
      else false
    | _, _ =>
      if op = "=" then strLower (vToString lhs) = strLower (vToString rhs)
      else if op = "!=" then strLower (vToString lhs) ≠ strLower (vToString rhs)
      else false

/-- One condition of a rule, as the loop body of ruleMatches evaluates it:
a raw condition missing field or op cannot be evaluated and fails; a field
absent from the input map fails; otherwise compareValue decides. -/
def condPasses (rs : Ruleset) (m : FieldMap) (c : Cond) : Bool :=
  if truthyS c.raw ∧ (¬ truthyS c.field ∨ ¬ truthyS c.op) then false
  else
    match c.field with
    | none => false
    | some f =>
      match assocGet m f with
      | none => false
      | some lhs => compareValue rs f (jsOrS c.op "") lhs c.value

/-- ruleMatches of the script: the conjunction of the conditions of the
rule, with the early non-match returns of the loop folded into all. -/
def ruleMatches (rs : Ruleset) (r : Rule) (m : FieldMap) : Bool :=
  r.conds.all (condPasses rs m)

/-- The effective severity level of a rule:
String(rule.level || ruleset.defaults?.level || "hard").toLowerCase(). -/
def effLevel (rs : Ruleset) (r : Rule) : String :=
  strLower (jsOrS r.level (jsOrS rs.defaultLevel "hard"))

/-- A rule counts as soft exactly when its effective level is soft. -/
def isSoftRule (rs : Ruleset) (r : Rule) : Bool := effLevel rs r = "soft"

/-- The case-insensitive infeasibility test of decide:
(r.then?.judgement || "").toLowerCase() === "infeasible". -/
def isInfeasibleJudg (r : Rule) : Bool :=
  strLower (jsOrS r.judgement "") = "infeasible"

/-- The rules the decide loop pushes onto triggered, in ruleset order. -/
def triggeredOf (rs : Ruleset) (m : FieldMap) : List Rule :=
  rs.rules.filter (fun r => ruleMatches rs r m)

/-- The hard partition of the triggered rules. -/
def hardOf (rs : Ruleset) (m : FieldMap) : List Rule :=
  (triggeredOf rs m).filter (fun r => ¬ isSoftRule rs r)

/-- The soft partition of the triggered rules. -/
def softOf (rs : Ruleset) (m : FieldMap) : List Rule :=
  (triggeredOf rs m).filter (fun r => isSoftRule rs r)

/-- The decision record decide returns: verdict string, judgement (absent
when the primary rule has no then.judgement), primary rule, and the
triggered lists.  The echoed ruleset is left implicit. -/
structure DecisionOut where
  verdict : String
  judgement : Option String
  rule : Option Rule
  triggered : List Rule
  triggeredHard : List Rule
  triggeredSoft : List Rule
deriving DecidableEq

/-- decide of the script.  The single pass that partitions the rules is
embedded as the three filters above (the loop appends each matching rule,
in order, to triggered and to exactly one of the two partitions); the
branch cascade follows the source line by line. -/
def decide (rs : Ruleset) (m : FieldMap) : DecisionOut :=
  let triggered := triggeredOf rs m
  let hard := hardOf rs m
  let soft := softOf rs m
  match hard.find? isInfeasibleJudg with
  | some r =>
    { verdict := "NO", judgement := some "Infeasible", rule := some r,
      triggered := triggered, triggeredHard := hard, triggeredSoft := soft }
  | none =>
    match hard.find? (fun r => ¬ isInfeasibleJudg r) with
    | some r =>
      { verdict := "YES*", judgement := r.judgement, rule := some r,
        triggered := triggered, triggeredHard := hard, triggeredSoft := soft }
    | none =>
      match soft with
      | p :: _ =>
        { verdict := "YES (ADVISORY)",
          judgement := some (jsOrS p.judgement "Advisory flags present"),
          rule := some p,
          triggered := triggered, triggeredHard := hard, triggeredSoft := soft }
      | [] =>
        { verdict := "YES", judgement := some "No hard infeasibility triggered",
          rule := none,
          triggered := triggered, triggeredHard := hard, triggeredSoft := soft }

theorem find?_neg_of_find?_none {α : Type} (l : List α) (p : α → Bool)
    (h : l.find? p = none) : l.find? (fun x => !p x) = l.head? := by
  cases l with
  | nil => rfl
  | cons a as =>
    have hpa : p a = false := by
      simpa using List.find?_eq_none.mp h a (List.mem_cons_self a as)
    rw [List.find?_cons_of_pos]
    · rfl
    · simp [hpa]

/-- The tiered verdict policy in the words of the spec, for comparison
with decide: a triggered hard rule with judgement infeasible gives NO with
the first such rule as primary; else the first triggered hard rule gives
YES* as primary; else the first triggered soft rule gives the advisory
verdict as primary; else YES with no primary. -/
def specTierPolicy (hard soft : List Rule) : String × Option Rule :=
  match hard.find? isInfeasibleJudg with
  | some r => ("NO", some r)
  | none =>
    match hard with
    | r :: _ => ("YES*", some r)
    | [] =>
      match soft with
      | r :: _ => ("YES (ADVISORY)", some r)
      | [] => ("YES", none)

/-- C1: for every ruleset and FieldMap, decide returns one of the four
verdict strings, its verdict and primary rule follow the tiered policy on
the hard and soft partitions of the triggered rules (in ruleset order),
the partitions it reports are exactly those, and a NO verdict entails a
triggered hard rule of the ruleset whose judgement is infeasible
(case-insensitively). -/
theorem decide_tiered (rs : Ruleset) (m : FieldMap) :
    ((decide rs m).verdict = "NO" ∨ (decide rs m).verdict = "YES*" ∨
      (decide rs m).verdict = "YES (ADVISORY)" ∨ (decide rs m).verdict = "YES") ∧
    ((decide rs m).verdict, (decide rs m).rule) = specTierPolicy (hardOf rs m) (softOf rs m) ∧
    (decide rs m).triggered = triggeredOf rs m ∧
    (decide rs m).triggeredHard = hardOf rs m ∧
    (decide rs m).triggeredSoft = softOf rs m ∧
    ((decide rs m).verdict = "NO" →
      ∃ r, r ∈ hardOf rs m ∧ isInfeasibleJudg r = true ∧ r ∈ rs.rules ∧
        ruleMatches rs r m = true) := by
  have hmem_rules : ∀ r, r ∈ hardOf rs m → r ∈ rs.rules ∧ ruleMatches rs r m = true := by
    intro r hr
    have h2 := (List.mem_filter.mp hr).1
    have h3 := List.mem_filter.mp h2
    exact ⟨h3.1, h3.2⟩
  cases h1 : (hardOf rs m).find? isInfeasibleJudg with
  | some r =>
    have hr := List.mem_of_find?_eq_some h1
    have hinf := List.find?_some h1
    refine ⟨by simp [decide, h1], by simp [decide, h1, specTierPolicy],
      by simp [decide, h1], by simp [decide, h1], by simp [decide, h1], ?_⟩
    intro _
    exact ⟨r, hr, hinf, (hmem_rules r hr).1, (hmem_rules r hr).2⟩
  | none =>
    have h2 := find?_neg_of_find?_none _ _ h1
    cases hh : hardOf rs m with
    | cons r rest =>
      rw [hh] at h1 h2
      refine ⟨by simp [decide, hh, h1, h2], by simp [decide, hh, h1, h2, specTierPolicy],
        by simp [decide, hh, h1, h2], by simp [decide, hh, h1, h2],
        by simp [decide, hh, h1, h2], by simp [decide, hh, h1, h2]⟩
    | nil =>
      rw [hh] at h1 h2
      cases hs : softOf rs m with
      | cons p rest =>
        refine ⟨by simp [decide, hh, h1, h2, hs], by simp [decide, hh, h1, h2, hs, specTierPolicy],
          by simp [decide, hh, h1, h2, hs], by simp [decide, hh, h1, h2, hs],
          by simp [decide, hh, h1, h2, hs], by simp [decide, hh, h1, h2, hs]⟩
      | nil =>
        refine ⟨by simp [decide, hh, h1, h2, hs], by simp [decide, hh, h1, h2, hs, specTierPolicy],
          by simp [decide, hh, h1, h2, hs], by simp [decide, hh, h1, h2, hs],
          by simp [decide, hh, h1, h2, hs], by simp [decide, hh, h1, h2, hs]⟩

/-- C2: compareValue uses ordinal comparison exactly when both values
resolve to positions on the configured scale for the field, and an
operator then holds iff the same relation holds of the two positions;
otherwise numeric comparison when both values are numbers; otherwise only
case-insensitive equality or inequality can hold and every ordering
operator evaluates false. -/
theorem compareValue_policy (rs : Ruleset) (field : String) (lhs rhs : Value) :
    (∀ li ri, ordinalIndex rs field lhs = some li → ordinalIndex rs field rhs = some ri →
      ((compareValue rs field ">" lhs rhs = true ↔ li > ri) ∧
       (compareValue rs field ">=" lhs rhs = true ↔ li ≥ ri) ∧
       (compareValue rs field "<" lhs rhs = true ↔ li < ri) ∧
       (compareValue rs field "<=" lhs rhs = true ↔ li ≤ ri) ∧
       (compareValue rs field "=" lhs rhs = true ↔ li = ri) ∧
       (compareValue rs field "!=" lhs rhs = true ↔ li ≠ ri))) ∧
    ((ordinalIndex rs field lhs = none ∨ ordinalIndex rs field rhs = none) →
      ((∀ a b, lhs = Value.num a → rhs = Value.num b →
        ((compareValue rs field ">" lhs rhs = true ↔ a > b) ∧
         (compareValue rs field ">=" lhs rhs = true ↔ a ≥ b) ∧
         (compareValue rs field "<" lhs rhs = true ↔ a < b) ∧
         (compareValue rs field "<=" lhs rhs = true ↔ a ≤ b) ∧
         (compareValue rs field "=" lhs rhs = true ↔ a = b) ∧
         (compareValue rs field "!=" lhs rhs = true ↔ a ≠ b))) ∧
       ((∀ a b, ¬ (lhs = Value.num a ∧ rhs = Value.num b)) →
        (compareValue rs field ">" lhs rhs = false ∧
         compareValue rs field ">=" lhs rhs = false ∧
         compareValue rs field "<" lhs rhs = false ∧
         compareValue rs field "<=" lhs rhs = false ∧
         (compareValue rs field "=" lhs rhs = true ↔
           strLower (vToString lhs) = strLower (vToString rhs)) ∧
         (compareValue rs field "!=" lhs rhs = true ↔
           strLower (vToString lhs) ≠ strLower (vToString rhs)))))) := by
  constructor
  · intro li ri hl hr
    refine ⟨?_, ?_, ?_, ?_, ?_, ?_⟩ <;> simp [compareValue, hl, hr]
  · intro hnone
    constructor
    · intro a b ha hb
      subst ha; subst hb
      cases hx : ordinalIndex rs field (Value.num a) with
      | some li =>
        cases hy : ordinalIndex rs field (Value.num b) with
        | some ri =>
          exfalso
          rcases hnone with h | h <;> simp_all
        | none =>
          refine ⟨?_, ?_, ?_, ?_, ?_, ?_⟩ <;> simp [compareValue, hx, hy]
      | none =>
        refine ⟨?_, ?_, ?_, ?_, ?_, ?_⟩ <;> simp [compareValue, hx]
    · intro hnn
      cases lhs with
      | num a =>
        cases rhs with
        | num b => exact absurd ⟨rfl, rfl⟩ (hnn a b)
        | str s =>
          cases hx : ordinalIndex rs field (Value.num a) with
          | some li =>
            cases hy : ordinalIndex rs field (Value.str s) with
            | some ri =>
              exfalso
              rcases hnone with h | h <;> simp_all
            | none =>
              refine ⟨?_, ?_, ?_, ?_, ?_, ?_⟩ <;> simp [compareValue, hx, hy]
          | none =>
            refine ⟨?_, ?_, ?_, ?_, ?_, ?_⟩ <;> simp [compareValue, hx]
      | str s =>
        cases hx : ordinalIndex rs field (Value.str s) with
        | some li =>
          cases hy : ordinalIndex rs field rhs with
          | some ri =>
            exfalso
            rcases hnone with h | h <;> simp_all
          | none =>
            cases rhs <;> refine ⟨?_, ?_, ?_, ?_, ?_, ?_⟩ <;> simp [compareValue, hx, hy]
        | none =>
          cases rhs <;> refine ⟨?_, ?_, ?_, ?_, ?_, ?_⟩ <;> simp [compareValue, hx]

/-- C4: a rule with a condition whose field is absent from the FieldMap
never matches, for any operator and right-hand value; evaluation cannot
fail, since ruleMatches is a total boolean function. -/
theorem ruleMatches_absent_field (rs : Ruleset) (r : Rule) (m : FieldMap) (c : Cond)
    (f : String) (hc : c ∈ r.conds) (hf : c.field = some f)
    (habs : assocGet m f = none) : ruleMatches rs r m = false := by
  have hcp : condPasses rs m c = false := by
    unfold condPasses
    by_cases hraw : truthyS c.raw ∧ (¬ truthyS c.field ∨ ¬ truthyS c.op)
    · rw [if_pos hraw]
    · rw [if_neg hraw, hf]
      simp [habs]
  simp only [ruleMatches]
  rw [List.all_eq_false]
  exact ⟨c, hc, by simp [hcp]⟩

/-- A parsed condition on a field that the witness map does not contain. -/
def condAbsent : Cond :=
  { raw := none, field := some "f", op := some "=", value := Value.str "x" }

/-- A rule whose only condition is condAbsent. -/
def ruleAbsent : Rule :=
  { id := "R1", cit := none, level := none, conds := [condAbsent],
    judgement := some "Infeasible" }

/-- Witness for C4 at a concrete input: against the empty FieldMap the
rule on the absent field f does not match. -/
theorem ruleMatches_absent_witness :
    ruleMatches rsStable ruleAbsent ([] : FieldMap) = false :=
  ruleMatches_absent_field rsStable ruleAbsent ([] : FieldMap) condAbsent "f"
    (by decide) (by decide) (by decide)

/-- Split a character list at every newline, as the split on the line
separator pattern: a carriage return directly before the newline belongs
to the piece and is removed by the trim that follows, so the composite
split-then-trim agrees with the script. -/
def splitNl : List Char → List (List Char)
  | [] => [[]]
  | c :: rest =>
    match splitNl rest with
    | [] => [[]]
    | h :: t => if c = '\n' then [] :: h :: t else (c :: h) :: t

/-- The trimmed, non-blank lines of the input text, as
text.split(line separator).map(trim).filter(Boolean). -/
def linesOf (text : String) : List String :=
  ((splitNl text.data).map (fun l => String.mk (trimChars l))).filter
    (fun s => ¬ s.data.isEmpty)

/-- The two key-value separator characters of the legacy line pattern. -/
def isSepKV (c : Char) : Bool := c = ':' ∨ c = '='

/-- The backtick character, code 96. -/
def backtick : Char := Char.ofNat 96

/-- Strip every backtick, as val.replace on the global backtick pattern. -/
def stripBackticks (s : String) : String :=
  String.mk (s.data.filter (fun c => c ≠ backtick))

/-- The decimal digit test of the numeric pattern. -/
def isDigitKV (c : Char) : Bool := '0' ≤ c ∧ c ≤ '9'

/-- Value of a run of decimal digits. -/
def digitsVal (l : List Char) : Nat :=
  l.foldl (fun a c => a * 10 + (c.toNat - 48)) 0

/-- The strict numeric literal test and value of the legacy parser:
optional minus, digit run, optional dot and digit run, anchored at both
ends.  parseInt and parseFloat on such a literal give its exact decimal
value, embedded as a rational. -/
def parseNumLit (s : String) : Option ℚ :=
  let cs := s.data
  let neg := cs.head? = some '-'
  let body := if neg then cs.drop 1 else cs
  let ip := body.takeWhile isDigitKV
  let rest := body.drop ip.length
  if ip.isEmpty then none
  else
    let ipv : ℚ := (digitsVal ip : ℚ)
    match rest with
    | [] => some (if neg then -ipv else ipv)
    | '.' :: fr =>
      if fr.isEmpty ∨ ¬ fr.all isDigitKV then none
      else
        let v : ℚ := ipv + (digitsVal fr : ℚ) / (10 : ℚ) ^ fr.length
        some (if neg then -v else v)
    | _ => none

/-- The match of one legacy line against the anchored pattern
key-run, separator, rest: the key group is the maximal run of
non-separator characters, so the separator consumed is the first of the
line; it must not sit at position zero, and at least one character must
follow it.  Both groups are then trimmed by normalizeKey (the whitespace
the pattern itself absorbs around the separator is removed by the same
trim). -/
def parseLine (line : String) : Option (String × String) :=
  let cs := line.data
  let pre := cs.takeWhile (fun c => ¬ isSepKV c)
  match cs.drop pre.length with
  | [] => none
  | _ :: suf =>
    if pre.isEmpty then none
    else if suf.isEmpty then none
    else some (String.mk (trimChars pre), String.mk (trimChars suf))

/-- The body of the legacy loop on one line: skip a line that does not
match the pattern, else canonicalize the key through the alias map, strip
backticks from the value, store a number when the value is a strict
numeric literal and the lowercased string otherwise. -/
def applyLine (amap : List (String × String)) (m : FieldMap) (line : String) : FieldMap :=
  match parseLine line with
  | none => m
  | some (k, v0) =>
    let canon := jsOrS (assocGet amap (strLower k)) k
    let v1 := stripBackticks v0
    match parseNumLit v1 with
    | some q => assocSet m canon (Value.num q)
    | none => assocSet m canon (Value.str (strLower v1))

/-- parseKeyValueLines of the script: fold the loop body over the trimmed
non-blank lines, starting from the empty map, with the alias lookup built
once per call. -/
def parseKeyValueLines (text : String) (rs : Ruleset) : FieldMap :=
  (linesOf text).foldl (applyLine (buildAliasMap rs.aliases)) []

/-- C6: the legacy line parser is total by construction (it is a plain
function into FieldMap, with no error outcome), and a line without a
colon or equals separator contributes nothing: folding the loop body over
any line list is unchanged when such a line is dropped, and
parseKeyValueLines is exactly that fold over the trimmed non-blank
lines. -/
theorem parseKeyValueLines_skips (rs : Ruleset) (pre post : List String) (l : String)
    (hnosep : l.data.all (fun c => ¬ isSepKV c)) :
    (pre ++ l :: post).foldl (applyLine (buildAliasMap rs.aliases)) [] =
      (pre ++ post).foldl (applyLine (buildAliasMap rs.aliases)) [] ∧
    ∀ text, parseKeyValueLines text rs =
      (linesOf text).foldl (applyLine (buildAliasMap rs.aliases)) [] := by
  refine ⟨?_, fun _ => rfl⟩
  have hline : parseLine l = none := by
    unfold parseLine
    have htake : l.data.takeWhile (fun c => ¬ isSepKV c) = l.data := by
      apply List.takeWhile_eq_self_iff.mpr
      intro c hc
      simpa using List.all_eq_true.mp hnosep c hc
    simp only [htake, List.drop_length]
  have happ : ∀ m, applyLine (buildAliasMap rs.aliases) m l = m := by
    intro m
    unfold applyLine
    rw [hline]
  rw [List.foldl_append, List.foldl_append, List.foldl_cons, happ]

/-- Witness for C6 at a concrete input: dropping the separator-free line
garbage between two legacy lines leaves the parsed map unchanged. -/
theorem parseKeyValueLines_skips_witness :
    (["a: 1"] ++ "garbage" :: ["b = x"]).foldl
        (applyLine (buildAliasMap rsStable.aliases)) [] =
      (["a: 1"] ++ ["b = x"]).foldl (applyLine (buildAliasMap rsStable.aliases)) [] :=
  (parseKeyValueLines_skips rsStable ["a: 1"] ["b = x"] "garbage" (by decide)).1

theorem assocGet_set_self {α : Type} (m : List (String × α)) (k : String) (v : α) :
    assocGet (assocSet m k v) k = some v := by
  induction m with
  | nil => simp [assocSet, assocGet]
  | cons p rest ih =>
    obtain ⟨a, b⟩ := p
    by_cases ha : a = k
    · simp [assocSet, assocGet, ha]
    · simp [assocSet, assocGet, ha, ih]

theorem assocGet_set_ne {α : Type} (m : List (String × α)) (k k2 : String) (v : α)
    (h : k2 ≠ k) : assocGet (assocSet m k v) k2 = assocGet m k2 := by
  induction m with
  | nil => simp [assocSet, assocGet, Ne.symm h]
  | cons p rest ih =>
    obtain ⟨a, b⟩ := p
    by_cases ha : a = k
    · subst ha
      simp [assocSet, assocGet, Ne.symm h]
    · by_cases ha2 : a = k2
      · subst ha2
        simp [assocSet, assocGet, ha]
      · simp [assocSet, assocGet, ha, ha2, ih]

/-- The fixed rating scale of the v0.2 derivation demo, weakest to
strongest. -/
def RATING_SCALE : List String :=
  ["excellent", "good", "fair", "moderate", "poor", "major", "critical"]

/-- ratingRank of the script: position of the normalized level on the
scale, -1 when absent (Array.indexOf). -/
def ratingRank (level : String) : Int :=
  match RATING_SCALE.findIdx? (fun x => x = trimStr (strLower level)) with
  | some i => (i : Int)
  | none => -1

/-- The reserved rating marker test:
key.toLowerCase().startsWith("rating."). -/
def isRatingKey (k : String) : Bool :=
  List.isPrefixOf "rating.".data (strLower k).data

/-- The normalized level text of a map value:
String(v).toLowerCase().trim(). -/
def levelOf (v : Value) : String := trimStr (strLower (vToString v))

/-- A derived value: the script emits a number (the tally), a warning
string, or a boolean flag. -/
inductive DerivVal where
  | num (n : Nat)
  | str (s : String)
  | bool (b : Bool)
deriving DecidableEq

/-- One derivation record: name, value and the optional contributor
list. -/
structure Derivation where
  name : String
  value : DerivVal
  dfrom : Option (List (String × String))
deriving DecidableEq

/-- The apostrophe character, code 39, used inside the warning text. -/
def apos : String := String.mk [Char.ofNat 39]

/-- The non-fatal warning derivation for a rating field with an
unrecognized level. -/
def warnDeriv (key level : String) : Derivation :=
  { name := "RatingParseWarning",
    value := DerivVal.str ("Ignored Rating field " ++ apos ++ key ++ apos ++
      " with unrecognized level " ++ apos ++ level ++ apos),
    dfrom := none }

/-- The scan of the derivation loop over the FieldMap entries, in map
order: total count of rating-tagged fields, the contributing
(field, level) pairs at or above the moderate threshold, and the warning
derivations for unrecognized levels. -/
def scanRatings : FieldMap → Nat × List (String × String) × List Derivation
  | [] => (0, [], [])
  | (k, v) :: rest =>
    let s := scanRatings rest
    if isRatingKey k then
      if ratingRank (levelOf v) = -1 then
        (s.1 + 1, s.2.1, warnDeriv k (levelOf v) :: s.2.2)
      else if ratingRank (levelOf v) ≥ ratingRank "moderate" then
        (s.1 + 1, (k, levelOf v) :: s.2.1, s.2.2)
      else (s.1 + 1, s.2.1, s.2.2)
    else s

/-- The number of rating-tagged fields present in the map. -/
def ratingCount (m : FieldMap) : Nat :=
  (m.filter (fun kv => isRatingKey kv.1)).length

/-- The canonicalized key the derived tally is stored under. -/
def derivedKeyOf (rs : Ruleset) : String :=
  jsOrS (assocGet (buildAliasMap rs.aliases) "moderateorworsecount")
    (jsOrS (assocGet (buildAliasMap rs.aliases) "count of attributes rated moderate or worse")
      "ModerateOrWorseCount")

/-- deriveInput of the script: scan the rating fields, and when at least
one was present inject the tally under the derived key and emit the tally
and critical-flag derivations after the warnings. -/
def deriveInput (m : FieldMap) (rs : Ruleset) : FieldMap × List Derivation :=
  let s := scanRatings m
  if s.1 > 0 then
    (assocSet m (derivedKeyOf rs) (Value.num (s.2.1.length : ℚ)),
     s.2.2 ++
       [{ name := "ModerateOrWorseCount", value := DerivVal.num s.2.1.length,
          dfrom := some s.2.1 },
        { name := "AnyCriticalFlag",
          value := DerivVal.bool (s.2.1.any (fun p => p.2 = "critical")),
          dfrom := none }])
  else (m, s.2.2)

theorem scanRatings_props : ∀ m : FieldMap,
    (scanRatings m).1 = ratingCount m ∧
    (scanRatings m).2.1.length ≤ ratingCount m ∧
    (∀ p ∈ (scanRatings m).2.1, ratingRank p.2 ≠ -1) ∧
    (∀ k v, (k, v) ∈ m → isRatingKey k = true → ratingRank (levelOf v) = -1 →
      warnDeriv k (levelOf v) ∈ (scanRatings m).2.2) ∧
    (ratingCount m = 0 → scanRatings m = (0, [], [])) := by
  intro m
  induction m with
  | nil => simp [scanRatings, ratingCount]
  | cons kv rest ih =>
    obtain ⟨k, v⟩ := kv
    obtain ⟨ih1, ih2, ih3, ih4, ih5⟩ := ih
    by_cases hk : isRatingKey k
    · have hcnt : ratingCount ((k, v) :: rest) = ratingCount rest + 1 := by
        simp [ratingCount, List.filter_cons, hk]
      by_cases hr : ratingRank (levelOf v) = -1
      · refine ⟨?_, ?_, ?_, ?_, ?_⟩
        · simp [scanRatings, hk, hr, hcnt, ih1]
        · simp only [scanRatings, hk, if_true, if_pos hr, hcnt]
          omega
        · simp only [scanRatings, hk, if_true, if_pos hr]
          exact ih3
        · intro k2 v2 hmem hk2 hr2
          simp only [scanRatings, hk, if_true, if_pos hr]
          rcases List.mem_cons.mp hmem with heq | hm
          · injection heq with hkk hvv
            subst hkk; subst hvv
            exact List.mem_cons_self _ _
          · exact List.mem_cons_of_mem _ (ih4 k2 v2 hm hk2 hr2)
        · intro h0
          omega
      · by_cases hth : ratingRank (levelOf v) ≥ ratingRank "moderate"
        · refine ⟨?_, ?_, ?_, ?_, ?_⟩
          · simp [scanRatings, hk, hr, hth, hcnt, ih1]
          · simp only [scanRatings, hk, if_true, if_neg hr, if_pos hth, hcnt,
              List.length_cons]
            omega
          · simp only [scanRatings, hk, if_true, if_neg hr, if_pos hth]
            intro p hp
            rcases List.mem_cons.mp hp with heq | hm
            · subst heq
              simpa using hr
            · exact ih3 p hm
          · intro k2 v2 hmem hk2 hr2
            simp only [scanRatings, hk, if_true, if_neg hr, if_pos hth]
            rcases List.mem_cons.mp hmem with heq | hm
            · injection heq with hkk hvv
              subst hkk; subst hvv
              exact absurd hr2 hr
            · exact ih4 k2 v2 hm hk2 hr2
          · intro h0
            omega
        · refine ⟨?_, ?_, ?_, ?_, ?_⟩
          · simp [scanRatings, hk, hr, hth, hcnt, ih1]
          · simp only [scanRatings, hk, if_true, if_neg hr, if_neg hth, hcnt]
            omega
          · simp only [scanRatings, hk, if_true, if_neg hr, if_neg hth]
            exact ih3
          · intro k2 v2 hmem hk2 hr2
            simp only [scanRatings, hk, if_true, if_neg hr, if_neg hth]
            rcases List.mem_cons.mp hmem with heq | hm
            · injection heq with hkk hvv
              subst hkk; subst hvv
              exact absurd hr2 hr
            · exact ih4 k2 v2 hm hk2 hr2
          · intro h0
            omega
    · have hcnt : ratingCount ((k, v) :: rest) = ratingCount rest := by
        simp [ratingCount, List.filter_cons, hk]
      have hsc : scanRatings ((k, v) :: rest) = scanRatings rest := by
        simp [scanRatings, hk]
      refine ⟨?_, ?_, ?_, ?_, ?_⟩
      · rw [hsc, hcnt]; exact ih1
      · rw [hsc, hcnt]; exact ih2
      · rw [hsc]; exact ih3
      · intro k2 v2 hmem hk2 hr2
        rw [hsc]
        rcases List.mem_cons.mp hmem with heq | hm
        · injection heq with hkk hvv
          subst hkk
          exact absurd hk2 (by simpa using hk)
        · exact ih4 k2 v2 hm hk2 hr2
      · intro h0
        rw [hsc]
        exact ih5 (by omega)


/-- C5: the moderate-or-worse tally of deriveInput is at most the number
of rating-tagged fields present in the map; with zero rating fields the
map is returned unchanged and the derivations list is empty; with at
least one, the tally derivation record is emitted; and a rating field
with unrecognized level text yields the non-fatal warning derivation and
is excluded from the tally contributors. -/
theorem deriveInput_spec (m : FieldMap) (rs : Ruleset) :
    (scanRatings m).2.1.length ≤ ratingCount m ∧
    (ratingCount m = 0 → deriveInput m rs = (m, [])) ∧
    (0 < ratingCount m →
      { name := "ModerateOrWorseCount", value := DerivVal.num ((scanRatings m).2.1.length),
        dfrom := some ((scanRatings m).2.1) } ∈ (deriveInput m rs).2) ∧
    (∀ k v, (k, v) ∈ m → isRatingKey k = true → ratingRank (levelOf v) = -1 →
      warnDeriv k (levelOf v) ∈ (deriveInput m rs).2 ∧
      (k, levelOf v) ∉ (scanRatings m).2.1) := by
  obtain ⟨h1, h2, h3, h4, h5⟩ := scanRatings_props m
  refine ⟨h2, ?_, ?_, ?_⟩
  · intro h0
    have hs := h5 h0
    simp [deriveInput, hs]
  · intro h0
    have hpos : (scanRatings m).1 > 0 := by rw [h1]; exact h0
    simp only [deriveInput, if_pos hpos]
    apply List.mem_append_right
    exact List.mem_cons_self _ _
  · intro k v hmem hk hr
    constructor
    · have hw := h4 k v hmem hk hr
      by_cases hpos : (scanRatings m).1 > 0
      · simp only [deriveInput, if_pos hpos]
        exact List.mem_append_left _ hw
      · simp only [deriveInput, if_neg hpos]
        exact hw
    · intro hc
      exact (h3 _ hc) hr

/-- C10: when at least one rating-tagged field is present, deriveInput
stores the computed tally under the derived key, overwriting any value
the input already held there, and every other key keeps the value it had
before derivation. -/
theorem deriveInput_frame (m : FieldMap) (rs : Ruleset) (h : 0 < ratingCount m) :
    assocGet (deriveInput m rs).1 (derivedKeyOf rs) =
      some (Value.num ((scanRatings m).2.1.length : ℚ)) ∧
    ∀ k, k ≠ derivedKeyOf rs → assocGet (deriveInput m rs).1 k = assocGet m k := by
  obtain ⟨h1, _, _, _, _⟩ := scanRatings_props m
  have hpos : (scanRatings m).1 > 0 := by rw [h1]; exact h
  constructor
  · simp only [deriveInput, if_pos hpos]
    exact assocGet_set_self _ _ _
  · intro k hk
    simp only [deriveInput, if_pos hpos]
    exact assocGet_set_ne _ _ _ _ hk

/-- A concrete map with one rating field at level moderate and one
unrelated field. -/
def mRatings : FieldMap := [("Rating.S", Value.str "moderate"), ("other", Value.num 1)]

/-- Witness for C10 at a concrete input: one rating field at level
moderate gives tally one under the default derived key, and the unrelated
key keeps its value. -/
theorem deriveInput_frame_witness :
    assocGet (deriveInput mRatings rsStable).1 (derivedKeyOf rsStable) =
      some (Value.num 1) ∧
    assocGet (deriveInput mRatings rsStable).1 "other" = assocGet mRatings "other" := by
  have h := deriveInput_frame mRatings rsStable (by decide)
  exact ⟨h.1.trans (by decide), h.2 "other" (by decide)⟩

/-- The word characters of the regex patterns (letters, digits,
underscore). -/
def isWordChar (c : Char) : Bool :=
  ('A' ≤ c ∧ c ≤ 'Z') ∨ ('a' ≤ c ∧ c ≤ 'z') ∨ isDigitKV c ∨ c = '_'

/-- Identifier-start characters (letters, underscore). -/
def isAlphaJS (c : Char) : Bool :=
  ('A' ≤ c ∧ c ≤ 'Z') ∨ ('a' ≤ c ∧ c ≤ 'z') ∨ c = '_'

/-- Identifier-continuation characters of the lexer (letters, digits,
underscore, hyphen). -/
def isAlnumJS (c : Char) : Bool := isAlphaJS c ∨ isDigitKV c ∨ c = '-'

/-- The semicolon test of the dialect heuristic: t.includes(";"). -/
def hasSemicolon (t : String) : Bool := t.data.contains ';'

/-- Scan for the hash-symbol pattern: a hash mark directly followed by a
word character, anywhere in the text. -/
def hashScan : List Char → Bool
  | [] => false
  | '#' :: c :: rest => if isWordChar c then true else hashScan (c :: rest)
  | _ :: rest => hashScan rest

/-- The hash-symbol test of the dialect heuristic. -/
def hasHashToken (t : String) : Bool := hashScan t.data

/-- Case-insensitive match of a lowercase pattern at the head of the
text; on success the rest of the text follows the match. -/
def matchCI : List Char → List Char → Option (List Char)
  | [], rest => some rest
  | _ :: _, [] => none
  | p :: ps, c :: cs => if lowerChar c = p then matchCI ps cs else none

/-- A word boundary sits against the edge of the text or a non-word
character. -/
def boundaryOk : Option Char → Bool
  | none => true
  | some c => ¬ isWordChar c

/-- One keyword of the query pattern matches here when the characters
match case-insensitively and a word boundary follows. -/
def kwHere (cs : List Char) : Bool :=
  match matchCI "check".data cs with
  | some rest => boundaryOk rest.head?
  | none =>
    match matchCI "eval".data cs with
    | some rest => boundaryOk rest.head?
    | none => false

/-- Scan for a boundary-delimited CHECK or EVAL, tracking the previous
character for the left boundary. -/
def kwScan : Option Char → List Char → Bool
  | _, [] => false
  | prev, c :: cs => (boundaryOk prev && kwHere (c :: cs)) || kwScan (some c) cs

/-- The case-insensitive query keyword test of the dialect heuristic. -/
def hasQueryKW (t : String) : Bool := kwScan none t.data

/-- Scan for the dotted identifier pattern: the flag records whether an
identifier run (letter or underscore start, word characters after) ends
directly before the current position; a dot followed by a letter or
underscore then completes a match. -/
def dottedScan : Bool → List Char → Bool
  | _, [] => false
  | inIdent, c :: cs =>
    if inIdent then
      if c = '.' then
        match cs with
        | d :: _ => if isAlphaJS d then true else dottedScan false cs
        | [] => false
      else dottedScan (isWordChar c) cs
    else dottedScan (isAlphaJS c) cs

/-- The dotted identifier test of the dialect heuristic. -/
def hasDottedIdent (t : String) : Bool := dottedScan false t.data

/-- isLikelySSELang of the script: trim the text, reject the empty text,
then the four heuristics in order. -/
def isLikelySSELang (text : String) : Bool :=
  let t := trimStr text
  if t.data.isEmpty then false
  else if hasSemicolon t then true
  else if hasQueryKW t then true
  else if hasHashToken t then true
  else if hasDottedIdent t then true
  else false

/-- Token types of the SSE-Lang lexer. -/
inductive TokTy where
  | COLON | EQUAL | SEMI | DOT | STRING | SYMBOL | NUMBER | IDENT
  | KW_CHECK | KW_EVAL | EOF
deriving DecidableEq

/-- One token: type, optional value, and the source location captured at
its first character. -/
structure Tok where
  ty : TokTy
  val : Option String
  line : Nat
  col : Nat
  pos : Nat
deriving DecidableEq

/-- The token type names as the parser error messages spell them. -/
def tyName : TokTy → String
  | .COLON => "COLON"
  | .EQUAL => "EQUAL"
  | .SEMI => "SEMI"
  | .DOT => "DOT"
  | .STRING => "STRING"
  | .SYMBOL => "SYMBOL"
  | .NUMBER => "NUMBER"
  | .IDENT => "IDENT"
  | .KW_CHECK => "KW_CHECK"
  | .KW_EVAL => "KW_EVAL"
  | .EOF => "EOF"

/-- The lexer error string: message, 1-based location, and the bounded
context snippet with a caret line. -/
def lexErr (src : String) (i line col : Nat) (msg : String) : String :=
  let chars := src.data
  let a := i - 20
  let ctx := String.mk ((chars.drop a).take (min chars.length (i + 20) - a))
  let caret := min 20 i
  "SSE-Lang parse error: " ++ msg ++ " at " ++ toString line ++ ":" ++ toString col ++
    "\n..." ++ ctx ++ "\n" ++ String.mk (List.replicate (3 + caret) ' ') ++ "^"

/-- The string-literal scan: everything to the closing quote, with the
two escapes (escaped quote, escaped backslash); a newline or the end of
input is fatal.  Returns the literal, the rest of the input and the
updated offset and column (the line cannot advance inside a literal). -/
def lexStrAux (src : String) : List Char → Nat → Nat → Nat → List Char →
    Except String (String × List Char × Nat × Nat)
  | [], i, line, col, _ => .error (lexErr src i line col "Unterminated string literal")
  | c :: rest, i, line, col, acc =>
    if c = '"' then .ok (String.mk acc.reverse, rest, i + 1, col + 1)
    else if c = '\n' then .error (lexErr src i line col "Unterminated string literal")
    else if c = '\\' then
      match rest with
      | n :: rest2 =>
        if n = '"' ∨ n = '\\' then lexStrAux src rest2 (i + 2) line (col + 2) (n :: acc)
        else lexStrAux src (n :: rest2) (i + 1) line (col + 1) (c :: acc)
      | [] => .error (lexErr src (i + 1) line (col + 1) "Unterminated string literal")
    else lexStrAux src rest (i + 1) line (col + 1) (c :: acc)
termination_by cs _ _ _ _ => cs.length

/-- The main lexer loop over the remaining characters, with offset, line
and column counters.  The fuel only bounds the iteration count; every
iteration consumes at least one character, so source length plus one
suffices and the exhaustion branch is unreachable. -/
def lexLoop (src : String) : Nat → List Char → Nat → Nat → Nat → Except String (List Tok)
  | 0, _, _, _, _ => .error "SSE-Lang lexer: fuel exhausted"
  | _ + 1, [], i, line, col =>
    .ok [{ ty := .EOF, val := none, line := line, col := col, pos := i }]
  | fuel + 1, c :: cs, i, line, col =>
    if c = ' ' ∨ c = '\t' ∨ c = '\r' then lexLoop src fuel cs (i + 1) line (col + 1)
    else if c = '\n' then lexLoop src fuel cs (i + 1) (line + 1) 1
    else if c = '/' ∧ cs.head? = some '/' then
      let rest := cs.drop 1
      let com := rest.takeWhile (fun x => x ≠ '\n')
      lexLoop src fuel (rest.drop com.length) (i + 2 + com.length) line (col + 2 + com.length)
    else if c = ':' then
      (lexLoop src fuel cs (i + 1) line (col + 1)).map
        (fun ts => { ty := .COLON, val := some ":", line := line, col := col, pos := i } :: ts)
    else if c = '=' then
      (lexLoop src fuel cs (i + 1) line (col + 1)).map
        (fun ts => { ty := .EQUAL, val := some "=", line := line, col := col, pos := i } :: ts)
    else if c = ';' then
      (lexLoop src fuel cs (i + 1) line (col + 1)).map
        (fun ts => { ty := .SEMI, val := some ";", line := line, col := col, pos := i } :: ts)
    else if c = '.' then
      (lexLoop src fuel cs (i + 1) line (col + 1)).map
        (fun ts => { ty := .DOT, val := some ".", line := line, col := col, pos := i } :: ts)
    else if c = '"' then
      match lexStrAux src cs (i + 1) line (col + 1) [] with
      | .error e => .error e
      | .ok (s, rest, i2, col2) =>
        (lexLoop src fuel rest i2 line col2).map
          (fun ts => { ty := .STRING, val := some s, line := line, col := col, pos := i } :: ts)
    else if c = '#' then
      match cs with
      | '!' :: _ =>
        .error (lexErr src i line col
          ("Directive syntax " ++ apos ++ "#!" ++ apos ++ " not supported in v0.1.1 input"))
      | [] =>
        (lexLoop src fuel [] (i + 1) line (col + 1)).map
          (fun ts => { ty := .SYMBOL, val := some "", line := line, col := col, pos := i } :: ts)
      | d :: _ =>
        if ¬ isAlnumJS d then
          .error (lexErr src (i + 1) line (col + 1)
            ("Expected symbol after " ++ apos ++ "#" ++ apos))
        else
          let name := cs.takeWhile isAlnumJS
          (lexLoop src fuel (cs.drop name.length) (i + 1 + name.length) line
              (col + 1 + name.length)).map
            (fun ts =>
              { ty := .SYMBOL, val := some (String.mk name), line := line, col := col,
                pos := i } :: ts)
    else if c = '-' ∨ isDigitKV c then
      let startOk : Bool :=
        if c = '-' then (match cs.head? with | some d => isDigitKV d | none => false)
        else true
      if ¬ startOk then
        .error (lexErr src i line col ("Unexpected " ++ apos ++ "-" ++ apos))
      else
        let body := if c = '-' then cs else c :: cs
        let ip := body.takeWhile isDigitKV
        let after := body.drop ip.length
        let fr : List Char :=
          match after with
          | '.' :: d :: _ =>
            if isDigitKV d then '.' :: (after.drop 1).takeWhile isDigitKV else []
          | _ => []
        let raw := (if c = '-' then ['-'] else []) ++ ip ++ fr
        (lexLoop src fuel ((c :: cs).drop raw.length) (i + raw.length) line
            (col + raw.length)).map
          (fun ts =>
            { ty := .NUMBER, val := some (String.mk raw), line := line, col := col,
              pos := i } :: ts)
    else if isAlphaJS c then
      let name := (c :: cs).takeWhile isAlnumJS
      let upper := strUpper (String.mk name)
      let tok : Tok :=
        if upper = "CHECK" then
          { ty := .KW_CHECK, val := some upper, line := line, col := col, pos := i }
        else if upper = "EVAL" then
          { ty := .KW_EVAL, val := some upper, line := line, col := col, pos := i }
        else { ty := .IDENT, val := some (String.mk name), line := line, col := col, pos := i }
      (lexLoop src fuel ((c :: cs).drop name.length) (i + name.length) line
          (col + name.length)).map (fun ts => tok :: ts)
    else
      .error (lexErr src i line col
        ("Unexpected character " ++ apos ++ String.mk [c] ++ apos))

/-- tokenizeSSE of the script. -/
def tokenizeSSE (text : String) : Except String (List Tok) :=
  lexLoop text (text.data.length + 1) text.data 0 1 1

/-- The location rendering of the parser error messages. -/
def locStr (t : Tok) : String := toString t.line ++ ":" ++ toString t.col

/-- The enum path tail: further dot-identifier segments after the first
identifier, keeping only the last segment.  The exhausted-stream branches
are unreachable because the token list always ends in an EOF token. -/
def enumPathLast : List Tok → String → Except String (String × List Tok)
  | d :: rest, last =>
    if d.ty = TokTy.DOT then
      match rest with
      | i2 :: rest2 =>
        if i2.ty = TokTy.IDENT then enumPathLast rest2 (jsOrS i2.val "")
        else
          .error ("SSE-Lang parse error: expected IDENT but got " ++ tyName i2.ty ++
            " at " ++ locStr i2)
      | [] => .error "SSE-Lang parse error: token stream exhausted"
    else .ok (last, d :: rest)
  | [], _ => .error "SSE-Lang parse error: token stream exhausted"

/-- parseValue of the script: a number token (parsed to its decimal
value), a string literal, a symbol (lowercased name), or an enum path
reduced to its lowercased last segment. -/
def parseValueTok : List Tok → Except String (Value × List Tok)
  | [] => .error "SSE-Lang parse error: token stream exhausted"
  | t :: rest =>
    match t.ty with
    | .NUMBER =>
      let raw := jsOrS t.val ""
      match parseNumLit raw with
      | some q => .ok (Value.num q, rest)
      | none => .error ("Invalid number: " ++ raw)
    | .STRING => .ok (Value.str (jsOrS t.val ""), rest)
    | .SYMBOL => .ok (Value.str (strLower (jsOrS t.val "")), rest)
    | .IDENT =>
      match enumPathLast rest (jsOrS t.val "") with
      | .error e => .error e
      | .ok (last, rest2) => .ok (Value.str (strLower last), rest2)
    | _ => .error ("SSE-Lang parse error: expected value at " ++ locStr t)

/-- The statement loop of the SSE-Lang parser: assignments store the
canonicalized key with the normalized value (strings lowercased and
backtick-stripped), queries set the flag; the loop ends at the EOF
token.  The fuel only bounds the statement count; every statement
consumes at least one token. -/
def parseStmts (rs : Ruleset) : Nat → List Tok → FieldMap → Bool →
    Except String (FieldMap × Bool)
  | 0, _, _, _ => .error "SSE-Lang parser: fuel exhausted"
  | _ + 1, [], _, _ => .error "SSE-Lang parse error: token stream exhausted"
  | fuel + 1, t :: rest, m, q =>
    match t.ty with
    | .EOF => .ok (m, q)
    | .IDENT =>
      match rest with
      | [] => .error "SSE-Lang parse error: token stream exhausted"
      | op :: rest2 =>
        if op.ty = TokTy.COLON ∨ op.ty = TokTy.EQUAL then
          match parseValueTok rest2 with
          | .error e => .error e
          | .ok (v, rest3) =>
            match rest3 with
            | [] => .error "SSE-Lang parse error: token stream exhausted"
            | s :: rest4 =>
              if s.ty = TokTy.SEMI then
                let key := canonKey rs (jsOrS t.val "")
                let normVal :=
                  match v with
                  | Value.str sv => Value.str (stripBackticks (strLower sv))
                  | Value.num qv => Value.num qv
                parseStmts rs fuel rest4 (assocSet m key normVal) q
              else
                .error ("SSE-Lang parse error: expected SEMI but got " ++ tyName s.ty ++
                  " at " ++ locStr s)
        else
          .error ("SSE-Lang parse error: expected " ++ apos ++ ":" ++ apos ++ " or " ++
            apos ++ "=" ++ apos ++ " at " ++ locStr op)
    | .KW_CHECK | .KW_EVAL =>
      match rest with
      | [] => .error "SSE-Lang parse error: token stream exhausted"
      | s :: rest2 =>
        if s.ty = TokTy.SEMI then parseStmts rs fuel rest2 m true
        else
          .error ("SSE-Lang parse error: expected SEMI but got " ++ tyName s.ty ++
            " at " ++ locStr s)
    | _ =>
      .error ("SSE-Lang parse error: unexpected token " ++ tyName t.ty ++ " at " ++ locStr t)

/-- parseSSELangProgram of the script: tokenize, then run the statement
loop from the empty map. -/
def parseSSELangProgram (text : String) (rs : Ruleset) : Except String (FieldMap × Bool) :=
  match tokenizeSSE text with
  | .error e => .error e
  | .ok toks => parseStmts rs (toks.length + 1) toks [] false

/-- parseSSELangOrLegacy of the script: the DSL parser when the heuristic
selects the DSL dialect, else the never-failing legacy parser. -/
def parseSSELangOrLegacy (text : String) (rs : Ruleset) : Except String FieldMap :=
  if isLikelySSELang text then (parseSSELangProgram text rs).map Prod.fst
  else .ok (parseKeyValueLines text rs)

/-- The JSON value tree the trace serializer works over.  Inductive
values are finite trees without reference identity, which matches the
trace payload the script serializes (built from fresh objects only); the
visited-set guard of the script, which needs reference identity to act,
is embedded separately on a reference graph further below. -/
inductive J where
  | null
  | bool (b : Bool)
  | num (q : ℚ)
  | str (s : String)
  | arr (xs : List J)
  | obj (fs : List (String × J))

/-- One lowercase hexadecimal digit. -/
def hexDigit (n : Nat) : Char :=
  if n < 10 then Char.ofNat (48 + n) else Char.ofNat (87 + n)

def hex4 (n : Nat) : String :=
  String.mk [hexDigit (n / 4096 % 16), hexDigit (n / 256 % 16),
    hexDigit (n / 16 % 16), hexDigit (n % 16)]

def escJChar (c : Char) : String :=
  if c = '"' then "\\\"" else if c = '\\' then "\\\\"
  else if c = '\n' then "\\n" else if c = '\r' then "\\r"
  else if c = '\t' then "\\t" else if c = Char.ofNat 8 then "\\b"
  else if c = Char.ofNat 12 then "\\f"
  else if c.toNat < 32 then "\\u" ++ hex4 c.toNat
  else String.mk [c]

/-- A JSON string literal with the standard escapes. -/
def strLit (s : String) : String :=
  "\"" ++ String.join (s.data.map escJChar) ++ "\""

/- JSON.stringify rendering: arrays and objects in stored order, no
whitespace. -/
mutual
def jStr : J → String
  | .null => "null"
  | .bool b => if b then "true" else "false"
  | .num q => numToStr q
  | .str s => strLit s
  | .arr xs => "[" ++ jStrList xs ++ "]"
  | .obj fs => "\x7b" ++ jStrFields fs ++ "\x7d"
def jStrList : List J → String
  | [] => ""
  | [x] => jStr x
  | x :: y :: rest => jStr x ++ "," ++ jStrList (y :: rest)
def jStrFields : List (String × J) → String
  | [] => ""
  | [(k, v)] => strLit k ++ ":" ++ jStr v
  | (k, v) :: f :: rest => strLit k ++ ":" ++ jStr v ++ "," ++ jStrFields (f :: rest)
end

/-- Lexicographic order on code points, the default comparator of
Array.sort on strings (they agree on the basic plane). -/
def lexLe : List Char → List Char → Bool
  | [], _ => true
  | _ :: _, [] => false
  | a :: as, b :: bs =>
    if a.toNat < b.toNat then true
    else if b.toNat < a.toNat then false
    else lexLe as bs

def strLeB (a b : String) : Bool := lexLe a.data b.data

def insField (p : String × J) : List (String × J) → List (String × J)
  | [] => [p]
  | q :: rest => if strLeB p.1 q.1 then p :: q :: rest else q :: insField p rest

/-- Insertion sort of the fields by key, extensionally the sort of
Object.keys (object keys are distinct, so every correct sort agrees). -/
def sortFields : List (String × J) → List (String × J)
  | [] => []
  | p :: rest => insField p (sortFields rest)

/-- An array-index key in the ECMAScript sense: the canonical decimal
rendering (no leading zero, except the single digit zero itself) of an
integer below 2^32 - 1.  Property enumeration — and hence
JSON.stringify — lists such keys of an object first, in ascending
numeric order, whatever the assignment order was. -/
def isIndexKey (s : String) : Bool :=
  ¬ s.data.isEmpty ∧ s.data.all isDigitKV ∧
    (s.data = ['0'] ∨ s.data.head? ≠ some '0') ∧ digitsVal s.data < 4294967295

/-- The numeric value of a field key (meaningful on index keys). -/
def idxVal (p : String × J) : Nat := digitsVal p.1.data

def insIdx (p : String × J) : List (String × J) → List (String × J)
  | [] => [p]
  | q :: rest => if idxVal p ≤ idxVal q then p :: q :: rest else q :: insIdx p rest

/-- Ascending numeric order of the index-key fields. -/
def sortIdx : List (String × J) → List (String × J)
  | [] => []
  | p :: rest => insIdx p (sortIdx rest)

/-- The property enumeration JSON.stringify applies to each object the
recur transform rebuilt: array-index keys first in ascending numeric
order, then the remaining keys in assignment order. -/
def enumFields (fs : List (String × J)) : List (String × J) :=
  sortIdx (fs.filter (fun p => isIndexKey p.1)) ++
    fs.filter (fun p => ¬ isIndexKey p.1)

/- The composite transform of stableStringify: recur sorts the keys of
every object lexicographically and rebuilds the object in that
assignment order; JSON.stringify then enumerates each rebuilt object
with its array-index keys first in ascending numeric order.  The
composition is applied here at each object, so the field order stored
below is the output order of the script. -/
mutual
def sortRec : J → J
  | .obj fs => .obj (enumFields (sortFields (sortRecFields fs)))
  | .arr xs => .arr (sortRecList xs)
  | .null => .null
  | .bool b => .bool b
  | .num q => .num q
  | .str s => .str s
def sortRecList : List J → List J
  | [] => []
  | x :: xs => sortRec x :: sortRecList xs
def sortRecFields : List (String × J) → List (String × J)
  | [] => []
  | (k, v) :: fs => (k, sortRec v) :: sortRecFields fs
end

/-- stableStringify of the script. -/
def stableStringify (j : J) : String := jStr (sortRec j)

/-- Adjacent-pairs lexicographic ordering of the keys of a field list. -/
def chainKeys : List (String × J) → Bool
  | [] => true
  | [_] => true
  | p :: q :: rest => strLeB p.1 q.1 && chainKeys (q :: rest)

/- Keys lexicographically sorted at every nesting level. -/
mutual
def keysOk : J → Bool
  | .obj fs => chainKeys fs && keysOkFields fs
  | .arr xs => keysOkList xs
  | .null => true
  | .bool _ => true
  | .num _ => true
  | .str _ => true
def keysOkList : List J → Bool
  | [] => true
  | x :: xs => keysOk x && keysOkList xs
def keysOkFields : List (String × J) → Bool
  | [] => true
  | (_, v) :: fs => keysOk v && keysOkFields fs
end

/-- A field list of non-index keys only, lexicographically chained. -/
def chainNonIdx : List (String × J) → Bool
  | [] => true
  | [p] => ¬ isIndexKey p.1
  | p :: q :: rest => ¬ isIndexKey p.1 && strLeB p.1 q.1 && chainNonIdx (q :: rest)

/-- A field list of index keys only, ascending by numeric value. -/
def chainIdx : List (String × J) → Bool
  | [] => true
  | [p] => isIndexKey p.1
  | p :: q :: rest => isIndexKey p.1 && idxVal p ≤ idxVal q && chainIdx (q :: rest)

/-- The enumeration-order check of one field list: a run of ascending
index keys followed by lexicographically sorted non-index keys. -/
def enumChain : List (String × J) → Bool
  | [] => true
  | p :: rest =>
    if isIndexKey p.1 then
      match rest with
      | [] => true
      | q :: _ =>
        if isIndexKey q.1 then idxVal p ≤ idxVal q && enumChain rest
        else chainNonIdx rest
    else chainNonIdx (p :: rest)

/- Keys in enumeration order at every nesting level. -/
mutual
def enumOk : J → Bool
  | .obj fs => enumChain fs && enumOkFields fs
  | .arr xs => enumOkList xs
  | .null => true
  | .bool _ => true
  | .num _ => true
  | .str _ => true
def enumOkList : List J → Bool
  | [] => true
  | x :: xs => enumOk x && enumOkList xs
def enumOkFields : List (String × J) → Bool
  | [] => true
  | (_, v) :: fs => enumOk v && enumOkFields fs
end

/- No array-index key at any nesting level. -/
mutual
def noIdxKeys : J → Bool
  | .obj fs => fs.all (fun p => ¬ isIndexKey p.1) && noIdxFields fs
  | .arr xs => noIdxList xs
  | .null => true
  | .bool _ => true
  | .num _ => true
  | .str _ => true
def noIdxList : List J → Bool
  | [] => true
  | x :: xs => noIdxKeys x && noIdxList xs
def noIdxFields : List (String × J) → Bool
  | [] => true
  | (_, v) :: fs => noIdxKeys v && noIdxFields fs
end

theorem lexLe_total : ∀ a b : List Char, lexLe a b = false → lexLe b a = true := by
  intro a
  induction a with
  | nil => intro b h; simp [lexLe] at h
  | cons x xs ih =>
    intro b h
    cases b with
    | nil => rfl
    | cons y ys =>
      simp only [lexLe] at h ⊢
      by_cases h1 : x.toNat < y.toNat
      · rw [if_pos h1] at h
        exact absurd h (by simp)
      · rw [if_neg h1] at h
        by_cases h2 : y.toNat < x.toNat
        · rw [if_pos h2]
        · rw [if_neg h2] at h
          rw [if_neg h2, if_neg h1]
          exact ih ys h

theorem strLeB_total (a b : String) (h : strLeB a b = false) : strLeB b a = true :=
  lexLe_total a.data b.data h

theorem chainKeys_insField (p : String × J) :
    ∀ l, chainKeys l = true → chainKeys (insField p l) = true := by
  intro l
  induction l with
  | nil => intro _; rfl
  | cons q rest ih =>
    intro h
    by_cases hle : strLeB p.1 q.1
    · simp only [insField, if_pos hle]
      simp only [chainKeys, hle, Bool.true_and]
      exact h
    · simp only [insField, if_neg hle]
      have hqp : strLeB q.1 p.1 = true := strLeB_total _ _ (by simpa using hle)
      cases rest with
      | nil => simp [chainKeys, hqp]
      | cons r rest2 =>
        have hparts : strLeB q.1 r.1 = true ∧ chainKeys (r :: rest2) = true := by
          simpa [chainKeys] using h
        have hqr := hparts.1
        have hcr := hparts.2
        by_cases hpr : strLeB p.1 r.1
        · simp only [insField, if_pos hpr]
          simp [chainKeys, hqp, hpr, hcr]
        · simp only [insField, if_neg hpr]
          have hrec := ih hcr
          simp only [insField, if_neg hpr] at hrec
          simp [chainKeys, hqr]
          exact hrec

theorem chainKeys_sortFields : ∀ l, chainKeys (sortFields l) = true := by
  intro l
  induction l with
  | nil => rfl
  | cons p rest ih => exact chainKeys_insField p _ ih

theorem keysOkFields_insField (p : String × J) :
    ∀ l, keysOkFields (insField p l) = (keysOk p.2 && keysOkFields l) := by
  intro l
  induction l with
  | nil => simp [insField, keysOkFields]
  | cons q rest ih =>
    obtain ⟨qk, qv⟩ := q
    by_cases hle : strLeB p.1 qk
    · simp [insField, hle, keysOkFields]
    · simp only [insField, hle, if_false, Bool.false_eq_true]
      simp only [keysOkFields, ih]
      rw [← Bool.and_assoc, Bool.and_comm (keysOk qv) (keysOk p.2), Bool.and_assoc]

theorem keysOkFields_sortFields : ∀ l, keysOkFields (sortFields l) = keysOkFields l := by
  intro l
  induction l with
  | nil => rfl
  | cons p rest ih =>
    obtain ⟨pk, pv⟩ := p
    simp only [sortFields, keysOkFields_insField, ih, keysOkFields]

theorem lexLe_trans : ∀ a b c : List Char,
    lexLe a b = true → lexLe b c = true → lexLe a c = true := by
  intro a
  induction a with
  | nil => intro b c _ _; rfl
  | cons x xs ih =>
    intro b c h1 h2
    cases b with
    | nil => simp [lexLe] at h1
    | cons y ys =>
      cases c with
      | nil => simp [lexLe] at h2
      | cons z zs =>
        simp only [lexLe] at h1 h2 ⊢
        by_cases hxy : x.toNat < y.toNat
        · by_cases hyz : y.toNat < z.toNat
          · rw [if_pos (show x.toNat < z.toNat by omega)]
          · rw [if_neg hyz] at h2
            by_cases hzy : z.toNat < y.toNat
            · rw [if_pos hzy] at h2
              exact absurd h2 (by simp)
            · rw [if_pos (show x.toNat < z.toNat by omega)]
        · rw [if_neg hxy] at h1
          by_cases hyx : y.toNat < x.toNat
          · rw [if_pos hyx] at h1
            exact absurd h1 (by simp)
          · rw [if_neg hyx] at h1
            by_cases hyz : y.toNat < z.toNat
            · rw [if_pos (show x.toNat < z.toNat by omega)]
            · rw [if_neg hyz] at h2
              by_cases hzy : z.toNat < y.toNat
              · rw [if_pos hzy] at h2
                exact absurd h2 (by simp)
              · rw [if_neg hzy] at h2
                rw [if_neg (show ¬ x.toNat < z.toNat by omega),
                  if_neg (show ¬ z.toNat < x.toNat by omega)]
                exact ih ys zs h1 h2

theorem strLeB_trans (a b c : String) (h1 : strLeB a b = true)
    (h2 : strLeB b c = true) : strLeB a c = true :=
  lexLe_trans _ _ _ h1 h2

theorem chainKeys_tail (p : String × J) (l : List (String × J))
    (h : chainKeys (p :: l) = true) : chainKeys l = true := by
  cases l with
  | nil => rfl
  | cons q rest =>
    have hp : strLeB p.1 q.1 = true ∧ chainKeys (q :: rest) = true := by
      simpa [chainKeys] using h
    exact hp.2

theorem chainKeys_head_le (p : String × J) :
    ∀ l, chainKeys (p :: l) = true → ∀ q ∈ l, strLeB p.1 q.1 = true := by
  intro l
  induction l generalizing p with
  | nil => intro _ q hq; simp at hq
  | cons r rest ih =>
    intro h q hq
    have hp : strLeB p.1 r.1 = true ∧ chainKeys (r :: rest) = true := by
      simpa [chainKeys] using h
    rcases List.mem_cons.mp hq with heq | hm
    · subst heq
      exact hp.1
    · exact strLeB_trans _ _ _ hp.1 (ih r hp.2 q hm)

theorem chainKeys_filter (f : (String × J) → Bool) :
    ∀ l, chainKeys l = true → chainKeys (l.filter f) = true := by
  intro l
  induction l with
  | nil => intro _; rfl
  | cons p rest ih =>
    intro h
    have htail := chainKeys_tail p rest h
    by_cases hf : f p
    · rw [List.filter_cons_of_pos hf]
      have hrec := ih htail
      cases hfl : rest.filter f with
      | nil => rfl
      | cons q t =>
        have hqmem : q ∈ rest :=
          (List.mem_filter.mp (show q ∈ rest.filter f by
            rw [hfl]; exact List.mem_cons_self q t)).1
        have hpq := chainKeys_head_le p rest h q hqmem
        rw [hfl] at hrec
        simp [chainKeys, hpq, hrec]
    · rw [List.filter_cons_of_neg hf]
      exact ih htail

theorem mem_insField (p q : String × J) :
    ∀ l, q ∈ insField p l ↔ q = p ∨ q ∈ l := by
  intro l
  induction l with
  | nil => simp [insField]
  | cons r rest ih =>
    by_cases hle : strLeB p.1 r.1
    · simp [insField, hle, List.mem_cons]
    · simp only [insField, hle, if_false, Bool.false_eq_true, List.mem_cons, ih]
      tauto

theorem mem_sortFields (q : String × J) : ∀ l, q ∈ sortFields l ↔ q ∈ l := by
  intro l
  induction l with
  | nil => simp [sortFields]
  | cons p rest ih => simp [sortFields, mem_insField, ih, List.mem_cons]

theorem mem_insIdx (p q : String × J) :
    ∀ l, q ∈ insIdx p l ↔ q = p ∨ q ∈ l := by
  intro l
  induction l with
  | nil => simp [insIdx]
  | cons r rest ih =>
    by_cases hle : idxVal p ≤ idxVal r
    · simp [insIdx, hle, List.mem_cons]
    · simp only [insIdx, hle, if_false, Bool.false_eq_true, List.mem_cons, ih]
      tauto

theorem mem_sortIdx (q : String × J) : ∀ l, q ∈ sortIdx l ↔ q ∈ l := by
  intro l
  induction l with
  | nil => simp [sortIdx]
  | cons p rest ih => simp [sortIdx, mem_insIdx, ih, List.mem_cons]

theorem chainIdx_insIdx (p : String × J) (hp : isIndexKey p.1 = true) :
    ∀ l, chainIdx l = true → chainIdx (insIdx p l) = true := by
  intro l
  induction l with
  | nil => intro _; simp [insIdx, chainIdx, hp]
  | cons q rest ih =>
    intro h
    by_cases hle : idxVal p ≤ idxVal q
    · simp only [insIdx, if_pos hle]
      cases rest with
      | nil =>
        have hq : isIndexKey q.1 = true := by simpa [chainIdx] using h
        simp [chainIdx, hp, hle, hq]
      | cons r t =>
        simp only [chainIdx, hp, hle]
        simpa [chainIdx] using h
    · simp only [insIdx, if_neg hle]
      have hqp : idxVal q ≤ idxVal p := by omega
      cases rest with
      | nil =>
        have hq : isIndexKey q.1 = true := by simpa [chainIdx] using h
        simp [insIdx, chainIdx, hq, hqp, hp]
      | cons r t =>
        have hparts : isIndexKey q.1 = true ∧ idxVal q ≤ idxVal r ∧
            chainIdx (r :: t) = true := by
          simpa [chainIdx, and_assoc] using h
        by_cases hpr : idxVal p ≤ idxVal r
        · simp only [insIdx, if_pos hpr]
          simp [chainIdx, hparts.1, hqp, hp, hpr, hparts.2.2]
        · simp only [insIdx, if_neg hpr]
          have hrec := ih hparts.2.2
          simp only [insIdx, if_neg hpr] at hrec
          simp [chainIdx, hparts.1, hparts.2.1]
          exact hrec

theorem chainIdx_sortIdx :
    ∀ l, (∀ q ∈ l, isIndexKey q.1 = true) → chainIdx (sortIdx l) = true := by
  intro l
  induction l with
  | nil => intro _; rfl
  | cons p rest ih =>
    intro hall
    exact chainIdx_insIdx p (hall p (List.mem_cons_self _ _)) _
      (ih fun q hq => hall q (List.mem_cons_of_mem _ hq))

theorem chainNonIdx_of :
    ∀ l, (∀ q ∈ l, isIndexKey q.1 = false) → chainKeys l = true →
      chainNonIdx l = true := by
  intro l
  induction l with
  | nil => intro _ _; rfl
  | cons p rest ih =>
    intro hall hchain
    cases rest with
    | nil => simp [chainNonIdx, hall p (List.mem_cons_self _ _)]
    | cons q t =>
      have hp : strLeB p.1 q.1 = true ∧ chainKeys (q :: t) = true := by
        simpa [chainKeys] using hchain
      have hrec := ih (fun r hr => hall r (List.mem_cons_of_mem _ hr)) hp.2
      simp [chainNonIdx, hall p (List.mem_cons_self _ _), hp.1]
      exact hrec

theorem enumChain_of_chainNonIdx :
    ∀ b, chainNonIdx b = true → enumChain b = true := by
  intro b hb
  cases b with
  | nil => rfl
  | cons p rest =>
    have hp : isIndexKey p.1 = false := by
      cases rest with
      | nil => simpa [chainNonIdx] using hb
      | cons q t =>
        have h2 : (¬ isIndexKey p.1 = true) ∧ strLeB p.1 q.1 = true ∧
            chainNonIdx (q :: t) = true := by
          simpa [chainNonIdx, and_assoc] using hb
        simpa using h2.1
    simp [enumChain, hp]
    exact hb

theorem chainNonIdx_head_false (p : String × J) (rest : List (String × J))
    (hb : chainNonIdx (p :: rest) = true) : isIndexKey p.1 = false := by
  cases rest with
  | nil => simpa [chainNonIdx] using hb
  | cons q t =>
    have h2 : (¬ isIndexKey p.1 = true) ∧ strLeB p.1 q.1 = true ∧
        chainNonIdx (q :: t) = true := by
      simpa [chainNonIdx, and_assoc] using hb
    simpa using h2.1

theorem enumChain_append :
    ∀ a b, (∀ q ∈ a, isIndexKey q.1 = true) → chainIdx a = true →
      chainNonIdx b = true → enumChain (a ++ b) = true := by
  intro a
  induction a with
  | nil => intro b _ _ hb; exact enumChain_of_chainNonIdx b hb
  | cons p a2 ih =>
    intro b hall hchain hb
    have hp := hall p (List.mem_cons_self _ _)
    cases a2 with
    | nil =>
      cases b with
      | nil => simp [enumChain, hp]
      | cons q t =>
        have hq := chainNonIdx_head_false q t hb
        simp [enumChain, hp, hq]
        exact hb
    | cons r a3 =>
      have hr := hall r (by simp)
      have hparts : idxVal p ≤ idxVal r ∧ chainIdx (r :: a3) = true := by
        simpa [chainIdx, hp, and_assoc] using hchain
      have hrec := ih b (fun q hq => hall q (List.mem_cons_of_mem _ hq)) hparts.2 hb
      simp only [List.cons_append] at hrec ⊢
      simp [enumChain, hp, hr, hparts.1]
      simpa [enumChain, hr] using hrec

theorem enumChain_enumFields (l : List (String × J)) (h : chainKeys l = true) :
    enumChain (enumFields l) = true := by
  apply enumChain_append
  · intro q hq
    exact (List.mem_filter.mp ((mem_sortIdx q _).mp hq)).2
  · exact chainIdx_sortIdx _ (fun q hq => (List.mem_filter.mp hq).2)
  · apply chainNonIdx_of
    · intro q hq
      simpa using (List.mem_filter.mp hq).2
    · exact chainKeys_filter _ l h

theorem enumOkFields_append :
    ∀ a b, enumOkFields (a ++ b) = (enumOkFields a && enumOkFields b) := by
  intro a b
  induction a with
  | nil => simp [enumOkFields]
  | cons p rest ih =>
    obtain ⟨k, v⟩ := p
    simp [enumOkFields, ih, Bool.and_assoc]

theorem enumOkFields_insField (p : String × J) :
    ∀ l, enumOkFields (insField p l) = (enumOk p.2 && enumOkFields l) := by
  intro l
  induction l with
  | nil => simp [insField, enumOkFields]
  | cons q rest ih =>
    obtain ⟨qk, qv⟩ := q
    by_cases hle : strLeB p.1 qk
    · simp [insField, hle, enumOkFields]
    · simp only [insField, hle, if_false, Bool.false_eq_true]
      simp only [enumOkFields, ih]
      rw [← Bool.and_assoc, Bool.and_comm (enumOk qv) (enumOk p.2), Bool.and_assoc]

theorem enumOkFields_sortFields :
    ∀ l, enumOkFields (sortFields l) = enumOkFields l := by
  intro l
  induction l with
  | nil => rfl
  | cons p rest ih =>
    obtain ⟨pk, pv⟩ := p
    simp only [sortFields, enumOkFields_insField, ih, enumOkFields]

theorem enumOkFields_insIdx (p : String × J) :
    ∀ l, enumOkFields (insIdx p l) = (enumOk p.2 && enumOkFields l) := by
  intro l
  induction l with
  | nil => simp [insIdx, enumOkFields]
  | cons q rest ih =>
    obtain ⟨qk, qv⟩ := q
    by_cases hle : idxVal p ≤ idxVal (qk, qv)
    · simp [insIdx, hle, enumOkFields]
    · simp only [insIdx, hle, if_false]
      simp only [enumOkFields, ih]
      rw [← Bool.and_assoc, Bool.and_comm (enumOk qv) (enumOk p.2), Bool.and_assoc]

theorem enumOkFields_sortIdx :
    ∀ l, enumOkFields (sortIdx l) = enumOkFields l := by
  intro l
  induction l with
  | nil => rfl
  | cons p rest ih =>
    obtain ⟨pk, pv⟩ := p
    simp only [sortIdx, enumOkFields_insIdx, ih, enumOkFields]

theorem enumOkFields_filter (f : (String × J) → Bool) :
    ∀ l, enumOkFields l = true → enumOkFields (l.filter f) = true := by
  intro l
  induction l with
  | nil => intro _; rfl
  | cons p rest ih =>
    obtain ⟨k, v⟩ := p
    intro h
    have hp : enumOk v = true ∧ enumOkFields rest = true := by
      simpa [enumOkFields] using h
    by_cases hf : f (k, v)
    · rw [List.filter_cons_of_pos hf]
      simp [enumOkFields, hp.1, ih hp.2]
    · rw [List.filter_cons_of_neg hf]
      exact ih hp.2

mutual
theorem enumOk_sortRec : ∀ j : J, enumOk (sortRec j) = true
  | .null => rfl
  | .bool _ => rfl
  | .num _ => rfl
  | .str _ => rfl
  | .arr xs => by
    simp only [sortRec, enumOk]
    exact enumOkList_sortRecList xs
  | .obj fs => by
    simp only [sortRec, enumOk]
    have hS : enumOkFields (sortFields (sortRecFields fs)) = true := by
      rw [enumOkFields_sortFields]
      exact enumOkFields_sortRecFields fs
    rw [enumChain_enumFields _ (chainKeys_sortFields _)]
    unfold enumFields
    rw [enumOkFields_append, enumOkFields_sortIdx,
      enumOkFields_filter _ _ hS, enumOkFields_filter _ _ hS]
    rfl
theorem enumOkList_sortRecList : ∀ xs : List J, enumOkList (sortRecList xs) = true
  | [] => rfl
  | x :: xs => by
    simp only [sortRecList, enumOkList, enumOk_sortRec x, enumOkList_sortRecList xs]
    rfl
theorem enumOkFields_sortRecFields : ∀ fs : List (String × J),
    enumOkFields (sortRecFields fs) = true
  | [] => rfl
  | (k, v) :: fs => by
    simp only [sortRecFields, enumOkFields, enumOk_sortRec v,
      enumOkFields_sortRecFields fs]
    rfl
end

theorem mem_sortRecFields_key :
    ∀ fs (q : String × J), q ∈ sortRecFields fs → ∃ v, (q.1, v) ∈ fs := by
  intro fs
  induction fs with
  | nil => intro q hq; simp [sortRecFields] at hq
  | cons p rest ih =>
    obtain ⟨k, v⟩ := p
    intro q hq
    rcases List.mem_cons.mp (by simpa [sortRecFields] using hq) with heq | hm
    · subst heq
      exact ⟨v, List.mem_cons_self _ _⟩
    · obtain ⟨v2, hv2⟩ := ih q hm
      exact ⟨v2, List.mem_cons_of_mem _ hv2⟩

mutual
theorem keysOk_sortRec_noIdx : ∀ j : J, noIdxKeys j = true → keysOk (sortRec j) = true
  | .null, _ => rfl
  | .bool _, _ => rfl
  | .num _, _ => rfl
  | .str _, _ => rfl
  | .arr xs, h => by
    simp only [sortRec, keysOk]
    exact keysOkList_sortRecList_noIdx xs (by simpa [noIdxKeys] using h)
  | .obj fs, h => by
    have hparts : (fs.all (fun p => ¬ isIndexKey p.1)) = true ∧ noIdxFields fs = true := by
      simpa [noIdxKeys] using h
    have hallS : ∀ q ∈ sortFields (sortRecFields fs), isIndexKey q.1 = false := by
      intro q hq
      obtain ⟨v0, hv0⟩ := mem_sortRecFields_key fs q ((mem_sortFields q _).mp hq)
      simpa using List.all_eq_true.mp hparts.1 _ hv0
    have hf1 : (sortFields (sortRecFields fs)).filter (fun p => isIndexKey p.1) = [] := by
      rw [List.filter_eq_nil_iff]
      intro a ha
      simp [hallS a ha]
    have hf2 : (sortFields (sortRecFields fs)).filter (fun p => ¬ isIndexKey p.1) =
        sortFields (sortRecFields fs) := by
      rw [List.filter_eq_self]
      intro a ha
      simp [hallS a ha]
    have henum : enumFields (sortFields (sortRecFields fs)) =
        sortFields (sortRecFields fs) := by
      rw [enumFields, hf1, hf2]
      rfl
    simp only [sortRec, keysOk, henum]
    rw [chainKeys_sortFields, keysOkFields_sortFields,
      keysOkFields_sortRecFields_noIdx fs hparts.2]
    rfl
theorem keysOkList_sortRecList_noIdx : ∀ xs : List J, noIdxList xs = true →
    keysOkList (sortRecList xs) = true
  | [], _ => rfl
  | x :: xs, h => by
    have hp : noIdxKeys x = true ∧ noIdxList xs = true := by
      simpa [noIdxList] using h
    simp only [sortRecList, keysOkList, keysOk_sortRec_noIdx x hp.1,
      keysOkList_sortRecList_noIdx xs hp.2]
    rfl
theorem keysOkFields_sortRecFields_noIdx : ∀ fs : List (String × J),
    noIdxFields fs = true → keysOkFields (sortRecFields fs) = true
  | [], _ => rfl
  | (k, v) :: fs, h => by
    have hp : noIdxKeys v = true ∧ noIdxFields fs = true := by
      simpa [noIdxFields] using h
    simp only [sortRecFields, keysOkFields, keysOk_sortRec_noIdx v hp.1,
      keysOkFields_sortRecFields_noIdx fs hp.2]
    rfl
end

theorem sortRecList_map : ∀ xs : List J, sortRecList xs = xs.map sortRec
  | [] => rfl
  | x :: xs => by simp only [sortRecList, List.map_cons, sortRecList_map xs]

/-- One step of the 32-bit accumulating fingerprint: xor the character
code in, multiply by the FNV prime 16777619, in 32-bit arithmetic
(h is kept below 2^32; character codes agree with the UTF-16 units of the
script on the basic plane). -/
def fnvStep (h : Nat) (c : Char) : Nat := ((h ^^^ c.toNat) * 16777619) % 4294967296

def natToHexAux : Nat → Nat → List Char
  | 0, _ => []
  | fuel + 1, n =>
    if n < 16 then [hexDigit n] else natToHexAux fuel (n / 16) ++ [hexDigit (n % 16)]

/-- Lowercase hexadecimal rendering of a 32-bit value, as
(h >>> 0).toString(16). -/
def natToHex (n : Nat) : String := String.mk (natToHexAux 8 n)

/-- padStart(8, "0") of the script. -/
def padStart8 (s : String) : String :=
  if s.data.length < 8 then String.mk (List.replicate (8 - s.data.length) '0' ++ s.data)
  else s

/-- simpleHash of the script: the FNV-1a-style accumulating hash over
the characters, rendered as 8 lowercase hex digits. -/
def simpleHash (s : String) : String :=
  padStart8 (natToHex (s.data.foldl fnvStep 2166136261))

theorem natToHexAux_len : ∀ fuel n, (natToHexAux fuel n).length ≤ fuel := by
  intro fuel
  induction fuel with
  | zero => intro n; simp [natToHexAux]
  | succ f ih =>
    intro n
    by_cases h : n < 16
    · simp [natToHexAux, h]
    · simp only [natToHexAux, h, if_false, List.length_append, List.length_cons,
        List.length_nil]
      have := ih (n / 16)
      omega

/-- The sixteen lowercase hexadecimal digits. -/
def hexChars : List Char := "0123456789abcdef".data

theorem hexDigit_mem : ∀ n, n < 16 → hexDigit n ∈ hexChars := by decide

theorem natToHexAux_mem : ∀ fuel n, ∀ c ∈ natToHexAux fuel n, c ∈ hexChars := by
  intro fuel
  induction fuel with
  | zero => intro n c hc; simp [natToHexAux] at hc
  | succ f ih =>
    intro n c hc
    by_cases h : n < 16
    · simp [natToHexAux, h] at hc
      subst hc
      exact hexDigit_mem n h
    · simp only [natToHexAux, h, if_false] at hc
      rcases List.mem_append.mp hc with h1 | h2
      · exact ih _ c h1
      · have : c = hexDigit (n % 16) := by simpa using h2
        subst this
        exact hexDigit_mem _ (Nat.mod_lt _ (by omega))

theorem fnv_lt (h : Nat) (c : Char) : fnvStep h c < 4294967296 :=
  Nat.mod_lt _ (by omega)

theorem simpleHash_format (s : String) :
    (simpleHash s).data.length = 8 ∧ ∀ c ∈ (simpleHash s).data, c ∈ hexChars := by
  have hlen : (natToHexAux 8 (s.data.foldl fnvStep 2166136261)).length ≤ 8 :=
    natToHexAux_len 8 _
  constructor
  · unfold simpleHash padStart8 natToHex
    by_cases h : (String.mk (natToHexAux 8 (s.data.foldl fnvStep 2166136261))).data.length < 8
    · simp only [h, if_true, List.length_append, List.length_replicate]
      simp only [String.data] at h ⊢
      omega
    · simp only [h, if_false]
      simp only [String.data] at h ⊢
      omega
  · intro c hc
    unfold simpleHash padStart8 natToHex at hc
    by_cases h : (String.mk (natToHexAux 8 (s.data.foldl fnvStep 2166136261))).data.length < 8
    · simp only [h, if_true] at hc
      rcases List.mem_append.mp hc with h1 | h2
      · have : c = '0' := by simpa using List.eq_of_mem_replicate h1
        subst this
        decide
      · exact natToHexAux_mem 8 _ c h2
    · simp only [h, if_false] at hc
      exact natToHexAux_mem 8 _ c hc

def jOfDerivVal : DerivVal → J
  | .num n => J.num n
  | .str s => J.str s
  | .bool b => J.bool b

/-- The normalized derivation record of the trace payload: name, value,
and the contributing field and level pairs when present (an absent from
key is omitted by JSON.stringify). -/
def jOfDeriv (d : Derivation) : J :=
  J.obj ([("name", J.str d.name), ("value", jOfDerivVal d.value)] ++
    (match d.dfrom with
     | some l =>
       [("from", J.arr (l.map (fun p => J.obj [("field", J.str p.1), ("level", J.str p.2)])))]
     | none => []))

def jOptFields (l : List (String × Option String)) : List (String × J) :=
  l.filterMap (fun p => (p.2).map (fun s => (p.1, J.str s)))

/-- The trace payload of renderResult: timestamp, ruleset identity,
verdict, judgement, primary rule id, citation and level, ordered
triggered-rule ids, and the normalized derivations.  Keys whose script
value is undefined are omitted, as JSON.stringify omits them. -/
def tracePayload (now : String) (rs : Ruleset) (d : DecisionOut)
    (derivs : List Derivation) : J :=
  J.obj
    ([("when", J.str now),
      ("ruleset",
        J.obj (jOptFields
          [("spec", rs.spec), ("version", rs.version), ("source", rs.source)])),
      ("verdict", J.str d.verdict)] ++
     (match d.judgement with
      | some s => [("judgement", J.str s)]
      | none => []) ++
     [("primary_rule",
        match d.rule with
        | some r =>
          J.obj [("id", J.str r.id), ("cit", J.str (jsOrS r.cit "")),
            ("level", J.str (jsOrS r.level ""))]
        | none => J.null),
      ("triggered", J.arr (d.triggered.map (fun r => J.str r.id))),
      ("derivations", J.arr (derivs.map jOfDeriv))])

/-- The trace identifier: the fixed literal tag followed by the
fingerprint of the stable serialization of the payload. -/
def traceIdOf (now : String) (rs : Ruleset) (d : DecisionOut)
    (derivs : List Derivation) : String :=
  "SSE-" ++ simpleHash (stableStringify (tracePayload now rs d derivs))

/-- The outcome of one full evaluation: everything the renderer reads,
with the trace id. -/
structure EvalOut where
  verdict : String
  judgement : Option String
  rule : Option Rule
  triggered : List Rule
  triggeredHard : List Rule
  triggeredSoft : List Rule
  derivations : List Derivation
  traceId : String

/-- The click-handler pipeline of main at one instant: parse (by the
selected dialect), derive, decide, and build the trace id from the
timestamp. -/
def evalAt (now text : String) (rs : Ruleset) : Except String EvalOut :=
  match parseSSELangOrLegacy text rs with
  | .error e => .error e
  | .ok m0 =>
    let der := deriveInput m0 rs
    let d := decide rs der.1
    .ok { verdict := d.verdict, judgement := d.judgement, rule := d.rule,
          triggered := d.triggered, triggeredHard := d.triggeredHard,
          triggeredSoft := d.triggeredSoft, derivations := der.2,
          traceId := traceIdOf now rs d der.2 }

/-- Every component of the outcome except the trace id. -/
def stripTrace (o : EvalOut) :
    String × Option String × Option Rule × List Rule × List Rule × List Rule ×
      List Derivation :=
  (o.verdict, o.judgement, o.rule, o.triggered, o.triggeredHard, o.triggeredSoft,
    o.derivations)

/-- C8: evaluation is deterministic up to the trace timestamp: the
pipeline run at any two instants yields identical verdict, judgement,
primary rule, triggered lists with their hard and soft partition, and
derivation records (and identical parse errors when the input is
malformed); only the trace id reads the clock. -/
theorem evalAt_deterministic (now1 now2 text : String) (rs : Ruleset) :
    (evalAt now1 text rs).map stripTrace = (evalAt now2 text rs).map stripTrace := by
  cases h : parseSSELangOrLegacy text rs with
  | error e => simp [evalAt, h]
  | ok m0 => simp [evalAt, h, stripTrace, Except.map]

/-- A JSON value in the reference-graph embedding: a primitive, or a
reference to a heap node.  References carry object identity, so shared
and cyclic structures — which the tree model above cannot express —
exist here; this second embedding of the same recur function of the
script states its visited-set guard. -/
inductive GVal where
  | null
  | bool (b : Bool)
  | num (q : ℚ)
  | str (s : String)
  | ref (n : Nat)

/-- One heap node: an array or an object of the graph. -/
inductive GNode where
  | arr (xs : List GVal)
  | obj (fs : List (String × GVal))

/-- The heap: node n is the object reference n points to. -/
abbrev Heap := List GNode

def insFieldG (p : String × GVal) : List (String × GVal) → List (String × GVal)
  | [] => [p]
  | q :: rest => if strLeB p.1 q.1 then p :: q :: rest else q :: insFieldG p rest

/-- The key sort of recur on the graph side (the keys are sorted before
the values are visited, which fixes which occurrence of a shared node is
serialized first). -/
def sortFieldsG : List (String × GVal) → List (String × GVal)
  | [] => []
  | p :: rest => insFieldG p (sortFieldsG rest)

/- recur of stableStringify on the graph: primitives pass through; a
reference already on the visited set (the WeakSet of the script, which
only ever grows) yields null — in particular every reference closing a
cycle; a fresh reference joins the set, an array maps its entries in
order, an object is rebuilt with its keys sorted.  The visited set
threads left to right through the traversal, as the mutable WeakSet
does.  The fuel only bounds the depth; every descent adds a fresh node
to the visited set, so heap size plus one suffices. -/
mutual
def recurG (h : Heap) : Nat → List Nat → GVal → J × List Nat
  | _, seen, .null => (J.null, seen)
  | _, seen, .bool b => (J.bool b, seen)
  | _, seen, .num q => (J.num q, seen)
  | _, seen, .str s => (J.str s, seen)
  | 0, seen, .ref _ => (J.null, seen)
  | fuel + 1, seen, .ref n =>
    if n ∈ seen then (J.null, seen)
    else
      match List.get? h n with
      | none => (J.null, n :: seen)
      | some (GNode.arr xs) =>
        let r := recurGList h fuel (n :: seen) xs
        (J.arr r.1, r.2)
      | some (GNode.obj fs) =>
        let r := recurGFields h fuel (n :: seen) (sortFieldsG fs)
        (J.obj r.1, r.2)
termination_by fuel _ _ => (fuel, 0)
def recurGList (h : Heap) : Nat → List Nat → List GVal → List J × List Nat
  | _, seen, [] => ([], seen)
  | fuel, seen, x :: xs =>
    let r1 := recurG h fuel seen x
    let r2 := recurGList h fuel r1.2 xs
    (r1.1 :: r2.1, r2.2)
termination_by fuel _ xs => (fuel, xs.length + 1)
def recurGFields (h : Heap) : Nat → List Nat → List (String × GVal) →
    List (String × J) × List Nat
  | _, seen, [] => ([], seen)
  | fuel, seen, (k, v) :: fs =>
    let r1 := recurG h fuel seen v
    let r2 := recurGFields h fuel r1.2 fs
    ((k, r1.1) :: r2.1, r2.2)
termination_by fuel _ fs => (fuel, fs.length + 1)
end

/-- A reference to an already-visited node serializes to null: the
substance of the cycle guard, since a reference closes a cycle exactly
when it points back to a node on the visited set. -/
theorem recurG_revisit (h : Heap) (fuel : Nat) (seen : List Nat) (n : Nat)
    (hmem : n ∈ seen) : recurG h fuel seen (GVal.ref n) = (J.null, seen) := by
  cases fuel with
  | zero => simp [recurG]
  | succ f => simp [recurG, hmem]

/-- A heap with one genuinely cyclic object: node 0 holds a field that
refers back to node 0. -/
def cyclicHeap : Heap := [GNode.obj [("self", GVal.ref 0)]]

/-- The cyclic reference of cyclicHeap collapses to null in the
serialized value. -/
theorem recurG_cyclic_example :
    recurG cyclicHeap 2 [] (GVal.ref 0) = (J.obj [("self", J.null)], [0]) := by
  simp [recurG, recurGFields, cyclicHeap, sortFieldsG, insFieldG, List.get?]

/-- Counterexample to C9 as frozen: on a record with the array-index
keys 10 and 2, the script serializes the key 2 first (property
enumeration of the rebuilt object orders index keys numerically), while
lexicographic order puts "10" first; so the object keys of the output
are not sorted lexicographically. -/
theorem stableStringify_numeric_keys :
    stableStringify (J.obj [("10", J.num 1), ("2", J.num 2)]) =
      "\x7b\"2\":2,\"10\":1\x7d" ∧
    strLeB "10" "2" = true ∧
    keysOk (sortRec (J.obj [("10", J.num 1), ("2", J.num 2)])) = false := by
  refine ⟨by decide, by decide, by decide⟩

theorem noIdxList_ids (l : List Rule) :
    noIdxList (l.map (fun r => J.str r.id)) = true := by
  induction l with
  | nil => rfl
  | cons r rest ih => simp [noIdxList, noIdxKeys, ih]

theorem noIdxList_from (l : List (String × String)) :
    noIdxList (l.map (fun p => J.obj [("field", J.str p.1), ("level", J.str p.2)])) =
      true := by
  induction l with
  | nil => rfl
  | cons p rest ih =>
    simp [noIdxList, noIdxKeys, noIdxFields, ih]
    decide

theorem noIdx_jOfDeriv (d : Derivation) : noIdxKeys (jOfDeriv d) = true := by
  have hval : noIdxKeys (jOfDerivVal d.value) = true := by
    cases d.value <;> rfl
  cases hf : d.dfrom with
  | none => simp [jOfDeriv, hf, noIdxKeys, noIdxFields, hval]; decide
  | some l =>
    simp [jOfDeriv, hf, noIdxKeys, noIdxFields, hval, noIdxList_from l]
    decide

theorem noIdxList_derivs (l : List Derivation) :
    noIdxList (l.map jOfDeriv) = true := by
  induction l with
  | nil => rfl
  | cons d rest ih => simp [noIdxList, noIdx_jOfDeriv d, ih]

theorem noIdx_jOptFields (l : List (String × Option String))
    (h : ∀ p ∈ l, isIndexKey p.1 = false) :
    ((jOptFields l).all (fun p => ¬ isIndexKey p.1)) = true ∧
      noIdxFields (jOptFields l) = true := by
  induction l with
  | nil => exact ⟨rfl, rfl⟩
  | cons p rest ih =>
    obtain ⟨k, o⟩ := p
    have hrest := ih (fun q hq => h q (List.mem_cons_of_mem _ hq))
    cases o with
    | none => simpa [jOptFields] using hrest
    | some v =>
      have hk := h (k, some v) (List.mem_cons_self _ _)
      have h1 := hrest.1
      have h2 := hrest.2
      simp only [jOptFields, List.filterMap_cons] at h1 h2 ⊢
      constructor
      · simp only [Option.map_some', List.all_cons]
        rw [h1]
        simp [hk]
      · simp only [Option.map_some', noIdxFields]
        rw [h2]
        simp [noIdxKeys]

theorem noIdx_tracePayload (now : String) (rs : Ruleset) (d : DecisionOut)
    (derivs : List Derivation) :
    noIdxKeys (tracePayload now rs d derivs) = true := by
  have hro := noIdx_jOptFields
    [("spec", rs.spec), ("version", rs.version), ("source", rs.source)]
    (by
      intro p hp
      simp only [List.mem_cons, List.not_mem_nil, or_false] at hp
      rcases hp with h | h | h <;> subst h
      · exact (show isIndexKey "spec" = false by decide)
      · exact (show isIndexKey "version" = false by decide)
      · exact (show isIndexKey "source" = false by decide))
  have kw : isIndexKey "when" = false := by decide
  have kr : isIndexKey "ruleset" = false := by decide
  have kv : isIndexKey "verdict" = false := by decide
  have kj : isIndexKey "judgement" = false := by decide
  have kp : isIndexKey "primary_rule" = false := by decide
  have kt : isIndexKey "triggered" = false := by decide
  have kd : isIndexKey "derivations" = false := by decide
  have ki : isIndexKey "id" = false := by decide
  have kc : isIndexKey "cit" = false := by decide
  have kl : isIndexKey "level" = false := by decide
  have hprim : noIdxKeys
      (match d.rule with
       | some r =>
         J.obj [("id", J.str r.id), ("cit", J.str (jsOrS r.cit "")),
           ("level", J.str (jsOrS r.level ""))]
       | none => J.null) = true := by
    cases d.rule with
    | none => rfl
    | some r => simp [noIdxKeys, noIdxFields, List.all_cons, ki, kc, kl]
  cases hj : d.judgement with
  | none =>
    simp [tracePayload, hj, noIdxKeys, noIdxFields, List.all_append, List.all_cons,
      noIdxList_ids, noIdxList_derivs, hro.1, hro.2, hprim,
      kw, kr, kv, kp, kt, kd]
    intro a b hab
    simpa using List.all_eq_true.mp hro.1 (a, b) hab
  | some s =>
    simp [tracePayload, hj, noIdxKeys, noIdxFields, List.all_append, List.all_cons,
      noIdxList_ids, noIdxList_derivs, hro.1, hro.2, hprim,
      kw, kr, kv, kj, kp, kt, kd]
    intro a b hab
    simpa using List.all_eq_true.mp hro.1 (a, b) hab

/-- C9 (amended): stableStringify orders the keys of every object, at
every nesting level, in the property enumeration order of the rebuilt
object: array-index keys first, ascending numerically, then the
remaining keys sorted lexicographically — fully lexicographic whenever
no array-index key occurs (the trace payload has none); array order is
preserved; a reference to an already-visited object — in particular one
closing a cycle — serializes to null (stated on the reference-graph
embedding, with a concrete cyclic heap); simpleHash renders as exactly 8
lowercase hexadecimal digits; and the trace id is the fixed literal tag
followed by the fingerprint of the serialized payload. -/
theorem trace_spec :
    (∀ j : J, enumOk (sortRec j) = true) ∧
    (∀ j : J, noIdxKeys j = true → keysOk (sortRec j) = true) ∧
    (∀ now rs d derivs, noIdxKeys (tracePayload now rs d derivs) = true) ∧
    (∀ j : J, stableStringify j = jStr (sortRec j)) ∧
    (∀ xs : List J, sortRec (J.arr xs) = J.arr (xs.map sortRec)) ∧
    (∀ h fuel seen n, n ∈ seen → recurG h fuel seen (GVal.ref n) = (J.null, seen)) ∧
    (recurG cyclicHeap 2 [] (GVal.ref 0) = (J.obj [("self", J.null)], [0])) ∧
    (∀ s : String, (simpleHash s).data.length = 8 ∧
      ∀ c ∈ (simpleHash s).data, c ∈ hexChars) ∧
    (∀ now rs d derivs, traceIdOf now rs d derivs =
      "SSE-" ++ simpleHash (stableStringify (tracePayload now rs d derivs))) :=
  ⟨enumOk_sortRec, keysOk_sortRec_noIdx, noIdx_tracePayload, fun _ => rfl,
   fun xs => by simp [sortRec, sortRecList_map],
   recurG_revisit, recurG_cyclic_example,
   simpleHash_format, fun _ _ _ _ => rfl⟩

/-- C3: dialect selection is a pure function of the raw input text,
true exactly when the trimmed text contains a semicolon, a
case-insensitive boundary-delimited query keyword, a hash-marked token,
or a dotted identifier pattern; on false the legacy parser runs, on true
the DSL parser. -/
theorem isLikelySSELang_spec (text : String) :
    (isLikelySSELang text =
      (hasSemicolon (trimStr text) || hasQueryKW (trimStr text) ||
        hasHashToken (trimStr text) || hasDottedIdent (trimStr text))) ∧
    (∀ t2 : String, text = t2 → isLikelySSELang text = isLikelySSELang t2) ∧
    (∀ rs : Ruleset, isLikelySSELang text = false →
      parseSSELangOrLegacy text rs = Except.ok (parseKeyValueLines text rs)) ∧
    (∀ rs : Ruleset, isLikelySSELang text = true →
      parseSSELangOrLegacy text rs = (parseSSELangProgram text rs).map Prod.fst) := by
  refine ⟨?_, fun t2 h => by rw [h], fun rs h => by simp [parseSSELangOrLegacy, h],
    fun rs h => by simp [parseSSELangOrLegacy, h]⟩
  unfold isLikelySSELang
  by_cases he : (trimStr text).data.isEmpty
  · have hd : (trimStr text).data = [] := by simpa using he
    rw [show hasSemicolon (trimStr text) = false from by simp [hasSemicolon, hd],
      show hasQueryKW (trimStr text) = false from by
        unfold hasQueryKW
        rw [hd]
        decide,
      show hasHashToken (trimStr text) = false from by
        unfold hasHashToken
        rw [hd]
        decide,
      show hasDottedIdent (trimStr text) = false from by
        unfold hasDottedIdent
        rw [hd]
        decide]
    simp [he]
  · simp only [he, if_false, Bool.false_eq_true]
    cases h1 : hasSemicolon (trimStr text) <;> cases h2 : hasQueryKW (trimStr text) <;>
      cases h3 : hasHashToken (trimStr text) <;> cases h4 : hasDottedIdent (trimStr text) <;>
      simp

end SSE
